import Mathlib

/-!
Verification development for the discord-message-exporter repository.

This file gives a shallow embedding, in Lean 4, of the parts of the
repository that the specification claims talk about:

* `lib/fileProcessor.js` : `downloadAndDeduplicateFile` (modelled by
  `downloadFile`), the string rewriter inside `processDataRecursively`
  (modelled by `processString`), `processUserAvatar` / `isUserObject`
  (modelled by `avatarStep` / `isUserObj`), and the recursive walker
  `processDataRecursively` itself (modelled by `processData` over an
  explicit heap of object identities, so that cyclic object graphs are
  representable).
* `lib/discordApi.js` : the rate-limit retry loop of `makeDiscordRequest`
  (modelled by `runReq` over a per-attempt response oracle).
* `server.js` : the fetch/process loop and terminal-event handling of
  `runExportProcess` (modelled by `fetchLoop` / `runExport`, which emit an
  explicit trace of status events, sleeps, fetch calls and file writes).

Effects are made explicit: the network is an oracle (`World`), the
filesystem state relevant to deduplication is the set of promoted file
paths (`DLState.disk`), and the per-job URL cache is an association list
(`DLState.cache`).  Raw bytes are `List Nat`; the MD5 function is a
parameter, since only its functionality (equal bytes, equal digest) and
the shape of its output matter for the claims.
-/

/-- Raw bytes of a downloaded resource. -/
abbrev Content := List Nat

/-- Outcome of the `fs.rename` promotion step in `downloadAndDeduplicateFile`:
success, an EXDEV error (the code falls back to copy-then-delete, which we
model as succeeding), or any other error (the code rethrows). -/
inductive RenameRes where
  | ok
  | exdev
  | fail
deriving DecidableEq, Repr

/-- The external world seen by the downloader: `net url` is the body of a
successful (2xx) GET of `url`, or `none` for a network error / non-2xx
status / stream error; `hd url` is whether a HEAD probe of `url` succeeds
(used by `findEmoteUrl`); `ren p` is the outcome of renaming the temp file
onto the final absolute path `p`. -/
structure World where
  net : String → Option Content
  hd : String → Bool
  ren : String → RenameRes

/-- Mutable per-job state threaded through the downloader: the
`downloadCache` map (URL to relative path, newest entry first) and the set
of final absolute paths already present on disk. -/
structure DLState where
  cache : List (String × String)
  disk : List String
deriving DecidableEq, Repr

/-- Lookup in the per-job download cache (`downloadCache.get(url)`). -/
def cacheLookup (c : List (String × String)) (url : String) : Option String :=
  match c.find? (fun p => p.1 == url) with
  | some p => some p.2
  | none => none

/-- Split a list of characters at every occurrence of `sep`, keeping empty
pieces, as the JavaScript `String.prototype.split` with a one-character
separator does. -/
def splitChar (sep : Char) : List Char → List (List Char)
  | [] => [[]]
  | c :: rest =>
    if c = sep then [] :: splitChar sep rest
    else
      match splitChar sep rest with
      | [] => [[c]]
      | p :: ps => (c :: p) :: ps

/-- Join pieces with the character `c`, as `Array.prototype.join`. -/
def joinChar (c : Char) : List (List Char) → List Char
  | [] => []
  | [p] => p
  | p :: ps => p ++ c :: joinChar c ps

/-- `path.relative(base, p)` restricted to the shapes the downloader
produces: when `p` lies strictly under `base` the result is the remaining
suffix; when `p = base` it is empty.  (Other shapes never arise from
`path.join(targetDirectory, file)` with the directories the program uses;
for them we keep `p` itself.) -/
def pathRelativeL (sep : Char) (base p : List Char) : List Char :=
  if (base ++ [sep]).isPrefixOf p then p.drop (base.length + 1)
  else if p = base then [] else p

/-- `path.relative(baseDir, p).split(path.sep).join('/')` from step 5 of
`downloadAndDeduplicateFile`. -/
def relPathOf (sep : Char) (base p : String) : String :=
  (joinChar '/' (splitChar sep (pathRelativeL sep base.toList p.toList))).asString

/-- `path.join` for one separator between a directory and a child name. -/
def pathJoin (sep : Char) (a b : String) : String :=
  a ++ String.singleton sep ++ b

/-- Characters kept by the extension sanitizer `replace(/[^a-z0-9.]/g, '')`. -/
def extChar (c : Char) : Bool :=
  ('a' ≤ c && c ≤ 'z') || ('0' ≤ c && c ≤ '9') || c = '.'

/-- `s.split('?')[0]`: the prefix before the first question mark. -/
def beforeQuery (s : String) : String :=
  (s.toList.takeWhile (fun c => c ≠ '?')).asString

/-- The `finalExt` normalisation in `downloadAndDeduplicateFile`:
`derivedExtension && derivedExtension.length > 1 ?
 derivedExtension.split('?')[0].toLowerCase().replace(/[^a-z0-9.]/g,'') :
 '.unknown'`. -/
def sanitizeExt (d : String) : String :=
  if 1 < d.length then
    (((beforeQuery d).toList.map Char.toLower).filter extChar).asString
  else ".unknown"

/-- Drop trailing path separators, as Node `path.basename` ignores them. -/
def dropTrailingSeps (sep : Char) (l : List Char) : List Char :=
  (l.reverse.dropWhile (fun c => c = '/' || c = sep)).reverse

/-- The basename of `l`: the part after the last separator. -/
def lastSeg (sep : Char) (l : List Char) : List Char :=
  ((splitChar sep ((splitChar '/' l).getLastD [])).getLastD [])

/-- Node `path.extname`: the suffix of the basename from its last dot,
empty when there is no dot or the only dot is the leading character. -/
def extnameL (sep : Char) (l : List Char) : List Char :=
  let b := lastSeg sep (dropTrailingSeps sep l)
  match ((List.range b.length).filter
      (fun i => decide (b.getD i ' ' = '.') && decide (1 ≤ i))).getLast? with
  | some i => b.drop i
  | none => []

/-- `path.extname` on strings. -/
def extname (sep : Char) (s : String) : String :=
  (extnameL sep s.toList).asString

/-- Suffix after the first occurrence of `pat`, if `pat` occurs. -/
def afterSubstr (pat : List Char) : List Char → Option (List Char)
  | [] => if pat = [] then some [] else none
  | c :: rest =>
    if pat.isPrefixOf (c :: rest) then some ((c :: rest).drop pat.length)
    else afterSubstr pat rest

/-- Approximation of `new URL(url).pathname` for scheme://host/path URLs:
the part from the first slash after the authority, cut at the first
question mark or hash; `none` when the string has no `://` (the code
catches the URL constructor throwing and falls back). -/
def urlPathname (s : String) : Option String :=
  match afterSubstr "://".toList s.toList with
  | none => none
  | some rest =>
    let p := rest.dropWhile (fun c => c ≠ '/')
    some ((p.takeWhile (fun c => c != '?' && c != '#')).asString)

/-- Step 1 of extension resolution when no extension is forced:
`path.extname(new URL(url).pathname)` with fallback to
`path.extname(url.split('?')[0])`. -/
def derivedExtOf (sep : Char) (url : String) : String :=
  match urlPathname url with
  | some pn =>
    let e := extname sep pn
    if e = "" then extname sep (beforeQuery url) else e
  | none => extname sep (beforeQuery url)

/-- Full extension resolution of `downloadAndDeduplicateFile`: a truthy
forced extension is used (prefixed with a dot when needed), otherwise the
extension is derived from the URL; the result is sanitized. -/
def finalExtOf (sep : Char) (url : String) (forced : Option String) : String :=
  let d :=
    match forced with
    | some f =>
      if f = "" then derivedExtOf sep url
      else if f.startsWith "." then f else "." ++ f
    | none => derivedExtOf sep url
  sanitizeExt d

/-- Shallow embedding of `downloadAndDeduplicateFile` from
`lib/fileProcessor.js`.  Returns the relative path on success and `none`
when the original throws; the state carries the cache and the set of
promoted files.  Failure points mirrored from the source: network error or
non-2xx status (`w.net url = none`), a rename error other than EXDEV, and
the guard that rejects an empty computed relative path.  The temp-file
cleanup of the `finally` block has no observable effect on this state. -/
def downloadFile (md5 : Content → String) (sep : Char) (w : World)
    (url targetDir baseDir : String) (forced : Option String) (s : DLState) :
    Option String × DLState :=
  match cacheLookup s.cache url with
  | some p => (some p, s)
  | none =>
    match w.net url with
    | none => (none, s)
    | some content =>
      let ext := finalExtOf sep url forced
      let name := md5 content ++ ext
      let fa := pathJoin sep targetDir name
      if s.disk.contains fa then
        let rel := relPathOf sep baseDir fa
        if rel = "" then (none, s)
        else (some rel, { s with cache := (url, rel) :: s.cache })
      else
        match w.ren fa with
        | RenameRes.fail => (none, s)
        | _ =>
          let s1 : DLState := { cache := s.cache, disk := fa :: s.disk }
          let rel := relPathOf sep baseDir fa
          if rel = "" then (none, s1)
          else (some rel, { s1 with cache := (url, rel) :: s1.cache })

/-- One queued call to the downloader: the URL together with the target
category directory and the forced extension used at that call site. -/
structure CallItem where
  url : String
  targetDir : String
  forced : Option String

/-- Run a sequence of downloader calls sharing one job state, counting the
calls that were cache misses and completed successfully, i.e. the calls
that performed a network download that was recorded in the cache. -/
def runSeq (md5 : Content → String) (sep : Char) (w : World) (base : String) :
    List CallItem → DLState → DLState × Nat
  | [], s => (s, 0)
  | c :: cs, s =>
    let hit := (cacheLookup s.cache c.url).isSome
    let r := downloadFile md5 sep w c.url c.targetDir base c.forced s
    let rest := runSeq md5 sep w base cs r.2
    (rest.1, rest.2 + (if !hit && r.1.isSome then 1 else 0))

/-- Case-insensitive literal match: strip `pat` from the front of `l`,
comparing lowercased characters. -/
def stripCi (pat : List Char) (l : List Char) : Option (List Char) :=
  match pat, l with
  | [], rest => some rest
  | _ :: _, [] => none
  | p :: ps, c :: cs => if c.toLower = p.toLower then stripCi ps cs else none

/-- Match `https?://` case-insensitively at the head, returning the scheme
length (7 or 8) and the remainder. -/
def stripScheme (l : List Char) : Option (Nat × List Char) :=
  match stripCi "http".toList l with
  | none => none
  | some l1 =>
    match l1 with
    | c :: cs =>
      if c.toLower = 's' then
        match stripCi "://".toList cs with
        | some l2 => some (8, l2)
        | none => none
      else
        match stripCi "://".toList l1 with
        | some l2 => some (7, l2)
        | none => none
    | [] => none

/-- The `.*\.giphy\.com` tail of the gif-domain pattern: some position
reachable without crossing a newline at which `.giphy.com` starts. -/
def noNlGiphy : List Char → Bool
  | [] => false
  | c :: rest =>
    (stripCi ".giphy.com".toList (c :: rest)).isSome ||
      (decide (c ≠ '\n') && noNlGiphy rest)

/-- The alternation of the gif-domain regex after the scheme. -/
def gifHostAfter (l : List Char) : Bool :=
  (stripCi "media.tenor.com".toList l).isSome ||
    (stripCi "gfycat.com".toList l).isSome || noNlGiphy l

/-- `gifDomains.test(s)`: the regex
`https?:\/\/(?:media\.tenor\.com|.*\.giphy\.com|gfycat\.com)` (flag i)
matches somewhere in the string. -/
def gifTestL : List Char → Bool
  | [] => false
  | c :: rest =>
    (match stripScheme (c :: rest) with
     | some x => gifHostAfter x.2
     | none => false) || gifTestL rest

/-- The media extensions of `fileUrlRegex`, in alternation order. -/
def urlExts : List String :=
  ["jpg", "jpeg", "png", "gif", "mp4", "mov", "avi", "mkv", "webm", "webp",
   "mp3", "ogg", "wav", "pdf"]

/-- The whitespace class `\s` of the JavaScript regexes (approximated by
`Char.isWhitespace`). -/
def jsSpace (c : Char) : Bool := c.isWhitespace

/-- The first extension of `urlExts` matching case-insensitively at the
head of `l`, as the regex alternation would pick it; returns its length. -/
def extAt (l : List Char) : Option Nat :=
  (urlExts.find? (fun e => (stripCi e.toList l).isSome)).map String.length

/-- Positions `p ≥ 1` in the non-space run `R` holding a dot followed by a
media extension, with that extension length; candidates in ascending
order.  The greedy `[^\s]+` of `fileUrlRegex` backtracks to the largest
such `p`. -/
def dotCandidates (R : List Char) : List (Nat × Nat) :=
  (List.range R.length).filterMap (fun p =>
    if decide (1 ≤ p) && decide (R.getD p ' ' = '.') then
      (extAt (R.drop (p + 1))).map (fun el => (p, el))
    else none)

/-- Length of the match of `fileUrlRegex` starting exactly at the head of
`l`, if any: scheme, then the longest `[^\s]+` prefix that leaves a
`.extension`, then a greedy optional `\?[^\s]*` query. -/
def urlMatchAt (l : List Char) : Option Nat :=
  match stripScheme l with
  | none => none
  | some sa =>
    let R := sa.2.takeWhile (fun c => !jsSpace c)
    match (dotCandidates R).getLast? with
    | none => none
    | some pe =>
      let endE := pe.1 + 1 + pe.2
      if R.getD endE ' ' = '?' then some (sa.1 + R.length)
      else some (sa.1 + endE)

/-- Scan for all matches of `fileUrlRegex` left to right, resuming after
each match, as `String.prototype.matchAll` does; `fuel` is an upper bound
on the number of scan steps (the caller passes the string length). -/
def scanUrls : Nat → List Char → List (List Char)
  | 0, _ => []
  | _ + 1, [] => []
  | fuel + 1, c :: rest =>
    match urlMatchAt (c :: rest) with
    | some n =>
      (c :: rest).take n :: scanUrls fuel ((c :: rest).drop (max n 1))
    | none => scanUrls fuel rest

/-- All matches (`match[0]` texts) of `fileUrlRegex` in the string. -/
def urlMatchesL (l : List Char) : List (List Char) := scanUrls l.length l

/-- One match of the emote regex `<(a?):([a-zA-Z0-9_]{2,32}):(\d{17,20})>`:
the animated marker, the emote name, the emote id, and the full matched
text. -/
structure EmMatch where
  animated : Bool
  name : String
  eid : String
  full : String
deriving DecidableEq, Repr

/-- Characters of the emote-name class `[a-zA-Z0-9_]`. -/
def emNameChar (c : Char) : Bool := c.isAlphanum || c = '_'

/-- Parse `name:id>` after the opening `<:` or `<a:`; returns the name,
the id and the number of characters consumed. -/
def emAfterColon (l : List Char) : Option (String × String × Nat) :=
  let nm := l.takeWhile emNameChar
  if 2 ≤ nm.length ∧ nm.length ≤ 32 then
    match l.drop nm.length with
    | ':' :: r2 =>
      let ds := r2.takeWhile Char.isDigit
      if 17 ≤ ds.length ∧ ds.length ≤ 20 then
        match r2.drop ds.length with
        | '>' :: _ =>
          some (nm.asString, ds.asString, nm.length + 1 + ds.length + 1)
        | _ => none
      else none
    | _ => none
  else none

/-- Match the emote regex at the head of `l`, returning the match and its
total length. -/
def emMatchAt (l : List Char) : Option (EmMatch × Nat) :=
  match l with
  | '<' :: 'a' :: ':' :: r =>
    (emAfterColon r).map (fun x =>
      ({ animated := true, name := x.1, eid := x.2.1,
         full := "<a:" ++ x.1 ++ ":" ++ x.2.1 ++ ">" }, 3 + x.2.2))
  | '<' :: ':' :: r =>
    (emAfterColon r).map (fun x =>
      ({ animated := false, name := x.1, eid := x.2.1,
         full := "<:" ++ x.1 ++ ":" ++ x.2.1 ++ ">" }, 2 + x.2.2))
  | _ => none

/-- Scan for all emote matches left to right, resuming after each match. -/
def scanEmotes : Nat → List Char → List EmMatch
  | 0, _ => []
  | _ + 1, [] => []
  | fuel + 1, c :: rest =>
    match emMatchAt (c :: rest) with
    | some mn => mn.1 :: scanEmotes fuel ((c :: rest).drop (max mn.2 1))
    | none => scanEmotes fuel rest

/-- All matches of the emote regex in the string. -/
def emMatchesL (l : List Char) : List EmMatch := scanEmotes l.length l

/-- Replace the first occurrence of `pat` (JavaScript
`String.prototype.replace` with a string pattern). -/
def replaceFirstL (pat rep : List Char) : List Char → List Char
  | [] => if pat.isPrefixOf ([] : List Char) then rep else []
  | c :: rest =>
    if pat.isPrefixOf (c :: rest) then rep ++ (c :: rest).drop pat.length
    else c :: replaceFirstL pat rep rest

/-- Collapse whitespace runs to a single space (`replace(/\s+/g, ' ')`). -/
def collapseGo (inWs : Bool) : List Char → List Char
  | [] => []
  | c :: rest =>
    if c.isWhitespace then
      if inWs then collapseGo true rest else ' ' :: collapseGo true rest
    else c :: collapseGo false rest

/-- Strip leading and trailing whitespace (`String.prototype.trim`). -/
def trimWs (l : List Char) : List Char :=
  ((l.dropWhile Char.isWhitespace).reverse.dropWhile Char.isWhitespace).reverse

/-- The sanitized alt text of `processSingleEmote`:
`emoteName.replace(/\|/g, '').replace(/\s+/g, ' ').trim()`. -/
def safeAlt (name : String) : String :=
  (trimWs (collapseGo false (name.toList.filter (fun c => c != '|')))).asString

/-- Static parameters of one processing run: the MD5 model, the host path
separator, `baseDownloadFolderAbsPath` and `baseExportDir`. -/
structure PEnv where
  md5 : Content → String
  sep : Char
  dlRoot : String
  baseDir : String

/-- `findEmoteUrl`: probe the CDN with HEAD requests over the candidate
formats in order, returning the first hit with its extension. -/
def findEmote (w : World) (eid : String) : Option (String × String) :=
  (["gif", "png", "webp", "jpg"].find? (fun e =>
      w.hd ("https://cdn.discordapp.com/emojis/" ++ eid ++ "." ++ e))).map
    (fun e => ("https://cdn.discordapp.com/emojis/" ++ eid ++ "." ++ e, e))

/-- `processSingleEmote`: resolve the emote URL, download it, and return
the marker `EMOTE_MARKER:<relativePath>|<alt>`; on lookup or download
failure return the original markdown unchanged. -/
def processSingleEmote (E : PEnv) (w : World) (m : EmMatch) (st : DLState) :
    String × DLState :=
  match findEmote w m.eid with
  | none => (m.full, st)
  | some ue =>
    match downloadFile E.md5 E.sep w ue.1 (pathJoin E.sep E.dlRoot "emotes")
        E.baseDir (some ue.2) st with
    | (some rel, st') =>
      ("EMOTE_MARKER:" ++ rel ++ "|" ++ safeAlt m.name, st')
    | (none, st') => (m.full, st')

/-- The URL-rewriting loop over the matches found in the original string:
each match is downloaded into `attachments/` and, on success, its first
occurrence in the current string is replaced by the relative path; on
failure the string is left unchanged at that site. -/
def urlPhase (E : PEnv) (w : World) :
    List (List Char) → List Char → DLState → List Char × DLState
  | [], cs, st => (cs, st)
  | m :: rest, cs, st =>
    match downloadFile E.md5 E.sep w m.asString
        (pathJoin E.sep E.dlRoot "attachments") E.baseDir none st with
    | (some rel, st') => urlPhase E w rest (replaceFirstL m rel.toList cs) st'
    | (none, st') => urlPhase E w rest cs st'

/-- The emote-rewriting loop: each match is resolved by
`processSingleEmote`; the first occurrence of the original markdown is
replaced only when the replacement differs from it. -/
def emPhase (E : PEnv) (w : World) :
    List EmMatch → List Char → DLState → List Char × DLState
  | [], cs, st => (cs, st)
  | m :: rest, cs, st =>
    let r := processSingleEmote E w m st
    if m.full ≠ r.1 then
      emPhase E w rest (replaceFirstL m.full.toList r.1.toList cs) r.2
    else emPhase E w rest cs r.2

/-- The string case of `processDataRecursively`: unless the gif-domain
regex matches somewhere in the string, rewrite the media-URL matches; then,
if the string still has the `<`, `:`, `>` characters, rewrite the emote
matches found in the current string. -/
def processString (E : PEnv) (w : World) (s : String) (st : DLState) :
    String × DLState :=
  let cs := s.toList
  let r1 :=
    if gifTestL cs then (cs, st)
    else urlPhase E w (urlMatchesL cs) cs st
  let r2 :=
    if r1.1.contains '<' && r1.1.contains ':' && r1.1.contains '>' then
      emPhase E w (emMatchesL r1.1) r1.1 r1.2
    else r1
  ((r2.1).asString, r2.2)

/-- A JavaScript value as seen by `processDataRecursively`: primitives are
immediate, objects and arrays are references into a heap of node
identities, so shared and cyclic object graphs are representable. -/
inductive JVal where
  | vstr (s : String)
  | vint (n : Int)
  | vbool (b : Bool)
  | vnull
  | vref (i : Nat)
deriving DecidableEq, Repr

/-- A heap node: an array of values or an object with ordered fields. -/
inductive JNode where
  | arr (items : List JVal)
  | obj (fields : List (String × JVal))
deriving DecidableEq, Repr

/-- The object heap: node identity to node. -/
abbrev Heap := List (Nat × JNode)

/-- The output of the rewriter: a plain finite JSON tree (the code builds
fresh arrays and objects, so the output has no sharing or cycles). -/
inductive OutJson where
  | str (s : String)
  | int (n : Int)
  | bool (b : Bool)
  | null
  | arr (xs : List OutJson)
  | obj (fields : List (String × OutJson))
deriving Repr

/-- Dereference a node identity. -/
def lookupNode (heap : Heap) (i : Nat) : Option JNode := heap.lookup i

/-- Number of heap nodes not on the current traversal path: the
termination measure of the recursive walk. -/
def countNotSeen (heap : Heap) (seen : List Nat) : Nat :=
  (heap.filter (fun p => !(seen.contains p.1))).length

theorem length_filter_mono {α : Type} {p q : α → Bool}
    (h : ∀ a, p a = true → q a = true) :
    ∀ l : List α, (l.filter p).length ≤ (l.filter q).length
  | [] => Nat.le_refl _
  | a :: rest => by
    have ih := length_filter_mono h rest
    by_cases hp : p a
    · rw [List.filter_cons_of_pos hp, List.filter_cons_of_pos (h a hp)]
      simpa using Nat.succ_le_succ ih
    · rw [List.filter_cons_of_neg (by simpa using hp)]
      cases hq : q a with
      | false => rw [List.filter_cons_of_neg (by simp [hq])]; exact ih
      | true => rw [List.filter_cons_of_pos hq]; exact Nat.le_succ_of_le ih

theorem contains_cons_imp {x i : Nat} {seen : List Nat}
    (h : ((i :: seen).contains x) = false) : (seen.contains x) = false := by
  simp only [List.contains_cons, Bool.or_eq_false_iff] at h
  exact h.2

theorem countNotSeen_lt (heap : Heap) (seen : List Nat) (i : Nat)
    (hseen : ¬ seen.contains i = true) (node : JNode)
    (hl : lookupNode heap i = some node) :
    countNotSeen heap (i :: seen) < countNotSeen heap seen := by
  have hnot : i ∉ seen := by simpa using hseen
  induction heap with
  | nil => simp [lookupNode, List.lookup] at hl
  | cons e rest ih =>
    obtain ⟨k, nd⟩ := e
    by_cases hk : i = k
    · subst hk
      unfold countNotSeen
      rw [List.filter_cons_of_neg (by simp),
        List.filter_cons_of_pos (by simpa using hnot)]
      have hmono := length_filter_mono
        (p := fun p : Nat × JNode => !((i :: seen).contains p.1))
        (q := fun p : Nat × JNode => !(seen.contains p.1))
        (fun a ha => by
          simp only [Bool.not_eq_true'] at ha ⊢
          exact contains_cons_imp ha) rest
      simp only [List.length_cons]
      omega
    · have hbk : (i == k) = false := by simpa using hk
      have hl' : lookupNode rest i = some node := by
        simpa [lookupNode, List.lookup, hbk] using hl
      have hlt := ih hl'
      unfold countNotSeen at hlt ⊢
      by_cases hc : k ∈ seen
      · rw [List.filter_cons_of_neg (by simp [hc]),
          List.filter_cons_of_neg (by simp [hc])]
        exact hlt
      · rw [List.filter_cons_of_pos (by simp [hc, Ne.symm hk]),
          List.filter_cons_of_pos (by simpa using hc)]
        simp only [List.length_cons]
        omega

/-- First field with the given key (JavaScript property read). -/
def getField (fields : List (String × JVal)) (k : String) : Option JVal :=
  (fields.find? (fun p => p.1 == k)).map (fun p => p.2)

/-- `isUserObject`: a string `id`, a string `username`, and an `avatar`
property of any type. -/
def isUserObj (fields : List (String × JVal)) : Bool :=
  (match getField fields "id" with
   | some (JVal.vstr _) => true
   | _ => false) &&
  (match getField fields "username" with
   | some (JVal.vstr _) => true
   | _ => false) &&
  (getField fields "avatar").isSome

/-- `constructAvatarCdnUrl`: `null` for a falsy or short hash, otherwise
the CDN URL, as a gif when the hash marks an animated avatar. -/
def constructAvatarCdnUrl (userId hash : String) : Option (String × String) :=
  if hash = "" then none
  else if hash.length < 10 then none
  else
    let fmt := if hash.startsWith "a_" then "gif" else "png"
    some ("https://cdn.discordapp.com/avatars/" ++ userId ++ "/" ++ hash ++
      "." ++ fmt ++ "?size=128", fmt)

/-- `processUserAvatar`: on a user-shaped object, resolve and download the
avatar, overwriting the `avatar` slot with the local relative path, or
`null` when there is no valid hash or the download fails.  Returns `none`
when the object is not user-shaped (no overwrite). -/
def avatarStep (E : PEnv) (w : World) (fields : List (String × JVal))
    (st : DLState) : Option JVal × DLState :=
  if isUserObj fields then
    let uid := match getField fields "id" with
      | some (JVal.vstr s) => s
      | _ => ""
    match getField fields "avatar" with
    | some (JVal.vstr h) =>
      match constructAvatarCdnUrl uid h with
      | some ue =>
        match downloadFile E.md5 E.sep w ue.1
            (pathJoin E.sep E.dlRoot "avatars") E.baseDir (some ue.2) st with
        | (some rel, st') => (some (JVal.vstr rel), st')
        | (none, st') => (some JVal.vnull, st')
      | none => (some JVal.vnull, st)
    | _ => (some JVal.vnull, st)
  else (none, st)

/-- Whether a value is a JavaScript string. -/
def isStr : JVal → Bool
  | JVal.vstr _ => true
  | _ => false

/-- The string payload of a value (meaningful only under `isStr`). -/
def strOf : JVal → String
  | JVal.vstr s => s
  | _ => ""

mutual

/-- Shallow embedding of `processDataRecursively`: primitives pass
through, strings are rewritten by `processString`, references already on
the traversal path become the `[Circular Reference]` sentinel, arrays and
objects are rebuilt from recursively processed children, with the avatar
overwrite of `processUserAvatar` applied before generic field iteration
and the rewritten string `avatar` slot skipped during it.  Lean accepting
this definition is the termination argument: the measure is the number of
heap nodes not yet on the traversal path. -/
def processData (E : PEnv) (w : World) (heap : Heap) :
    JVal → List Nat → DLState → OutJson × DLState
  | JVal.vstr s, _, st =>
    let r := processString E w s st
    (OutJson.str r.1, r.2)
  | JVal.vint n, _, st => (OutJson.int n, st)
  | JVal.vbool b, _, st => (OutJson.bool b, st)
  | JVal.vnull, _, st => (OutJson.null, st)
  | JVal.vref i, seen, st =>
    if h : seen.contains i then (OutJson.str "[Circular Reference]", st)
    else
      match hl : lookupNode heap i with
      | none => (OutJson.null, st)
      | some (JNode.arr items) =>
        let r := processItems E w heap items (i :: seen) st
        (OutJson.arr r.1, r.2)
      | some (JNode.obj fields) =>
        let av := avatarStep E w fields st
        let r := processFields E w heap fields av.1 (i :: seen) av.2
        (OutJson.obj r.1, r.2)
termination_by v seen st => (countNotSeen heap seen, 0)
decreasing_by
  all_goals simp_wf
  · exact Prod.Lex.left _ _ (countNotSeen_lt heap seen i h _ hl)
  · exact Prod.Lex.left _ _ (countNotSeen_lt heap seen i h _ hl)

/-- Sequential processing of array items. -/
def processItems (E : PEnv) (w : World) (heap : Heap) :
    List JVal → List Nat → DLState → List OutJson × DLState
  | [], _, st => ([], st)
  | v :: rest, seen, st =>
    let r := processData E w heap v seen st
    let rs := processItems E w heap rest seen r.2
    (r.1 :: rs.1, rs.2)
termination_by l seen st => (countNotSeen heap seen, l.length + 1)
decreasing_by
  all_goals simp_wf
  all_goals exact Prod.Lex.right _ (by omega)

/-- Sequential processing of object fields; `av` is the avatar overwrite
computed by `avatarStep` for this object, substituted at `avatar` keys;
an `avatar` key whose (post-overwrite) value is a string is copied
without recursion, as in the source. -/
def processFields (E : PEnv) (w : World) (heap : Heap) :
    List (String × JVal) → Option JVal → List Nat → DLState →
      List (String × OutJson) × DLState
  | [], _, _, st => ([], st)
  | kv :: rest, av, seen, st =>
    let v' := if kv.1 = "avatar" then av.getD kv.2 else kv.2
    if kv.1 = "avatar" && isStr v' then
      let rs := processFields E w heap rest av seen st
      ((kv.1, OutJson.str (strOf v')) :: rs.1, rs.2)
    else
      let r := processData E w heap v' seen st
      let rs := processFields E w heap rest av seen r.2
      ((kv.1, r.1) :: rs.1, rs.2)
termination_by l av seen st => (countNotSeen heap seen, l.length + 1)
decreasing_by
  all_goals simp_wf
  all_goals exact Prod.Lex.right _ (by omega)

end

/-- Observable effects of `runExportProcess` in `server.js`, in order: a
status event published through `sendJobUpdate` (its `status` field), a
call to `fetchMessagesBatch` (batch index and attempt number), a timed
sleep in milliseconds, and a file written into the export directory. -/
inductive JEv where
  | ev (status : String)
  | fetchCall (b a : Nat)
  | sleep (ms : Nat)
  | fileWrite (name content : String)
deriving DecidableEq, Repr

/-- Outcome of the moving of `downloaded_files` into the html directory. -/
inductive MoveR where
  | ok
  | noDir
  | fail
deriving DecidableEq, Repr

/-- Result of the fetch/process loop: aborted (the enclosing function
returned after writing the failure marker) or finished normally with the
final batch index and message total. -/
inductive LoopRes where
  | aborted
  | done (b total : Nat)
deriving DecidableEq, Repr

/-- Oracle for one export job run: the channel history as a finite list of
batches (an index past the end fetches an empty batch, the history-
exhausted signal), per-batch per-attempt fetch failures, per-batch
processing failures, the render outcome, the asset-move outcome, and
whether the initial directory creation succeeds. -/
structure JobW where
  batches : List (List String)
  fetchErr : Nat → Nat → Bool
  procErr : Nat → Bool
  renderErr : Bool
  moveRes : MoveR
  mkdirOk : Bool

/-- One batch fetch with the single retry policy of `runExportProcess`:
on a first failure publish a warning, sleep 5000 ms and retry once; on a
second failure publish an error event and write `EXPORT_FAILED.txt`
naming the batch.  Returns the trace and whether the job must abort. -/
def tryFetch (w : JobW) (b : Nat) : List JEv × Bool :=
  if w.fetchErr b 0 then
    if w.fetchErr b 1 then
      ([JEv.ev "progress", JEv.fetchCall b 0, JEv.ev "warning",
        JEv.sleep 5000, JEv.fetchCall b 1, JEv.ev "error",
        JEv.fileWrite "EXPORT_FAILED.txt"
          ("Failed fetch batch " ++ toString b)], true)
    else
      ([JEv.ev "progress", JEv.fetchCall b 0, JEv.ev "warning",
        JEv.sleep 5000, JEv.fetchCall b 1], false)
  else ([JEv.ev "progress", JEv.fetchCall b 0], false)

/-- The fetch/process loop of `runExportProcess`, walking the remaining
batches (`rem` is the history from the current cursor on, so the current
fetch returns its head, or an empty batch past the end).  Per iteration:
optional batch-cap stop; fetch with one retry (`tryFetch`); a progress
event with the fetched count; loop exit on an empty batch; raw batch file
write; processing (an error aborts with an error event and the failure
marker); processed file write; progress event; inter-batch sleep. -/
def fetchLoop (w : JobW) (maxB : Option Nat) (delay : Nat) :
    List (List String) → Nat → Option String → Nat → List JEv × LoopRes
  | [], b, _, total =>
    if (match maxB with | some m => decide (m ≤ b) | none => false) then
      ([], LoopRes.done b total)
    else
      let tf := tryFetch w b
      if tf.2 then (tf.1, LoopRes.aborted)
      else (tf.1 ++ [JEv.ev "progress", JEv.ev "progress"],
        LoopRes.done b total)
  | m :: rest, b, _, total =>
    if (match maxB with | some mb => decide (mb ≤ b) | none => false) then
      ([], LoopRes.done b total)
    else
      let tf := tryFetch w b
      if tf.2 then (tf.1, LoopRes.aborted)
      else
        if m.isEmpty then
          (tf.1 ++ [JEv.ev "progress", JEv.ev "progress"],
            LoopRes.done b total)
        else
          let t2 := tf.1 ++ [JEv.ev "progress",
            JEv.fileWrite ("messages_batch_" ++ toString b) "raw",
            JEv.ev "progress"]
          if w.procErr b then
            (t2 ++ [JEv.ev "error",
              JEv.fileWrite "EXPORT_FAILED.txt"
                ("Failed process batch " ++ toString b)], LoopRes.aborted)
          else
            let t3 := t2 ++
              [JEv.fileWrite ("processed_messages_batch_" ++ toString b)
                 "processed",
               JEv.ev "progress", JEv.sleep delay]
            let r := fetchLoop w maxB delay rest (b + 1) m.getLast?
              (total + m.length)
            (t3 ++ r.1, r.2)

/-- The whole of `runExportProcess` as its event trace: the `starting`
event; on a directory-creation failure the outer catch (error event plus
failure marker); otherwise the two setup progress events, the fetch loop,
and, when the loop finished normally, html generation (an error aborts
with marker), the asset move (a failure is a warning plus warning marker,
not fatal), the success marker and the single `complete` event. -/
def runExport (w : JobW) (maxB : Option Nat) (delay : Nat) : List JEv :=
  JEv.ev "starting" ::
    (if !w.mkdirOk then
      [JEv.ev "error", JEv.fileWrite "EXPORT_FAILED.txt" "Unexpected error"]
    else
      JEv.ev "progress" :: JEv.ev "progress" ::
        (let r := fetchLoop w maxB delay w.batches 0 none 0
         r.1 ++
           (match r.2 with
            | LoopRes.aborted => []
            | LoopRes.done _ _ =>
              JEv.ev "progress" ::
                (if w.renderErr then
                  [JEv.ev "error",
                   JEv.fileWrite "EXPORT_FAILED.txt" "HTML gen failed"]
                else
                  JEv.ev "progress" :: JEv.ev "progress" ::
                    ((match w.moveRes with
                      | MoveR.ok => [JEv.ev "progress"]
                      | MoveR.noDir => [JEv.ev "progress"]
                      | MoveR.fail =>
                        [JEv.ev "warning",
                         JEv.fileWrite "EXPORT_WARNING_MOVE_FAILED.txt"
                           "Failed move"]) ++
                      [JEv.fileWrite "EXPORT_SUCCESS.txt" "summary",
                       JEv.ev "complete"])))))

/-- The status strings an observer connected for the whole job receives,
in order. -/
def statuses (tr : List JEv) : List String :=
  tr.filterMap (fun e => match e with
    | JEv.ev s => some s
    | _ => none)

/-- A terminal status: `complete` or `error`. -/
def isTerm (s : String) : Bool := s == "complete" || s == "error"

/-- A parsed Discord API response as far as the rate-limit logic of
`makeDiscordRequest` observes it: the HTTP status and the parsed
`retry-after` header in seconds, when present. -/
structure DResp where
  status : Nat
  retryAfter : Option Nat
deriving DecidableEq, Repr

/-- A request identified by token, URL and method. -/
structure DReq where
  token : String
  url : String
  method : String
deriving DecidableEq, Repr

/-- The wait computed on a 429: `parseInt(retryAfter) * 1000 + 500` with
the header present, else the fixed 5000 ms fallback. -/
def delayOf (r : DResp) : Nat :=
  match r.retryAfter with
  | some sec => sec * 1000 + 500
  | none => 5000

/-- The retry loop of `makeDiscordRequest`, with the response of attempt
`n` for request `req` given by the oracle `resp req n`: while the status
is 429, wait `delayOf` and re-issue the identical request; stop at the
first non-429 response.  `fuel` bounds the modelled attempts; the code
itself retries without bound.  Returns the resolving attempt index, the
total waited milliseconds and the final response. -/
def runReq (resp : DReq → Nat → DResp) (req : DReq) (k : Nat) :
    Nat → Option (Nat × Nat × DResp)
  | 0 => none
  | fuel + 1 =>
    let r := resp req k
    if r.status = 429 then
      match runReq resp req (k + 1) fuel with
      | some x => some (x.1, delayOf r + x.2.1, x.2.2)
      | none => none
    else some (k, 0, r)

/-- Total wait accumulated over the 429 responses of attempts below `k`. -/
def waitSum (resp : DReq → Nat → DResp) (req : DReq) : Nat → Nat
  | 0 => 0
  | k + 1 => waitSum resp req k + delayOf (resp req k)

/-! ### Lemmas about the downloader -/

theorem cacheLookup_cons_self (c : List (String × String)) (u r : String) :
    cacheLookup ((u, r) :: c) u = some r := by
  simp [cacheLookup, List.find?]

theorem cacheLookup_cons_ne (c : List (String × String)) (u r v : String)
    (h : v ≠ u) : cacheLookup ((u, r) :: c) v = cacheLookup c v := by
  have hb : (u == v) = false := by simpa using (Ne.symm h)
  simp [cacheLookup, List.find?, hb]

/-- The cache-check step: on a hit the cached path is returned with the
state untouched, whatever the network would do. -/
theorem dl_hit (md5 : Content → String) (sep : Char) (w : World)
    (url td bd : String) (f : Option String) (s : DLState) (p : String)
    (h : cacheLookup s.cache url = some p) :
    downloadFile md5 sep w url td bd f s = (some p, s) := by
  unfold downloadFile
  rw [h]

/-- On any failure the cache is unchanged. -/
theorem dl_fail_state (md5 : Content → String) (sep : Char) (w : World)
    (url td bd : String) (f : Option String) (s s' : DLState)
    (h : downloadFile md5 sep w url td bd f s = (none, s')) :
    s'.cache = s.cache := by
  unfold downloadFile at h
  split at h
  · simp_all
  · split at h
    · cases h; rfl
    · dsimp only at h
      split at h
      · split at h
        · cases h; rfl
        · simp_all
      · split at h
        · cases h; rfl
        · split at h
          · cases h; rfl
          · simp_all

/-- On a successful cache miss the new cache is the old one with the
fresh entry in front. -/
theorem dl_success_shape (md5 : Content → String) (sep : Char) (w : World)
    (url td bd : String) (f : Option String) (s : DLState) (r : String)
    (s' : DLState) (hmiss : cacheLookup s.cache url = none)
    (h : downloadFile md5 sep w url td bd f s = (some r, s')) :
    s'.cache = (url, r) :: s.cache := by
  unfold downloadFile at h
  rw [hmiss] at h
  split at h
  · simp_all
  · split at h
    · simp_all
    · dsimp only at h
      split at h
      · split at h
        · simp_all
        · cases h; rfl
      · split at h
        · simp_all
        · split at h
          · simp_all
          · cases h; rfl

/-- Any successful call leaves its URL mapped to the returned path in the
cache. -/
theorem dl_success_records (md5 : Content → String) (sep : Char) (w : World)
    (url td bd : String) (f : Option String) (s : DLState) (r : String)
    (s' : DLState)
    (h : downloadFile md5 sep w url td bd f s = (some r, s')) :
    cacheLookup s'.cache url = some r := by
  cases hc : cacheLookup s.cache url with
  | some p =>
    have := dl_hit md5 sep w url td bd f s p hc
    rw [this] at h
    obtain ⟨h1, h2⟩ := Prod.mk.injEq .. ▸ h
    cases h1
    rw [h2] at hc
    exact hc
  | none =>
    have := dl_success_shape md5 sep w url td bd f s r s' hc h
    rw [this]
    exact cacheLookup_cons_self _ _ _

/-- The dedup bound: over any call sequence sharing one state, the number
of successful cache-miss downloads is at most the number of distinct URLs
whose entry is not already in the cache. -/
theorem runSeq_bound (md5 : Content → String) (sep : Char) (w : World)
    (base : String) :
    ∀ (calls : List CallItem) (s : DLState),
      (runSeq md5 sep w base calls s).2 ≤
        (((calls.map CallItem.url).filter
          (fun u => (cacheLookup s.cache u).isNone)).toFinset).card := by
  intro calls
  induction calls with
  | nil => intro s; simp [runSeq]
  | cons c cs ih =>
    intro s
    simp only [runSeq, List.map_cons]
    cases hc : cacheLookup s.cache c.url with
    | some p =>
      have hd := dl_hit md5 sep w c.url c.targetDir base c.forced s p hc
      rw [List.filter_cons_of_neg (by simp [hc]), hd]
      simpa [hc] using ih s
    | none =>
      rw [List.filter_cons_of_pos (by simp [hc])]
      rw [List.toFinset_cons]
      cases hres : downloadFile md5 sep w c.url c.targetDir base c.forced s with
      | mk ores s2 =>
        cases ores with
        | none =>
          have hcache : s2.cache = s.cache :=
            dl_fail_state md5 sep w c.url c.targetDir base c.forced s s2 hres
          have hih := ih s2
          rw [hcache] at hih
          simp only [hres, hc]
          calc (runSeq md5 sep w base cs s2).2 + 0
              = (runSeq md5 sep w base cs s2).2 := by omega
            _ ≤ _ := hih
            _ ≤ _ := Finset.card_le_card (Finset.subset_insert _ _)
        | some r =>
          have hcache : s2.cache = (c.url, r) :: s.cache :=
            dl_success_shape md5 sep w c.url c.targetDir base c.forced s r s2
              hc hres
          have hih := ih s2
          have hfeq : ((cs.map CallItem.url).filter
              (fun u => (cacheLookup s2.cache u).isNone)) =
              (((cs.map CallItem.url).filter
                (fun u => (cacheLookup s.cache u).isNone)).filter
                (fun u => u != c.url)) := by
            rw [List.filter_filter]
            apply List.filter_congr
            intro u _
            by_cases hu : u = c.url
            · subst hu
              rw [hcache]
              simp [cacheLookup_cons_self]
            · rw [hcache, cacheLookup_cons_ne _ _ _ _ hu]
              simp [hu]
          rw [hfeq] at hih
          have hto : ((((cs.map CallItem.url).filter
              (fun u => (cacheLookup s.cache u).isNone)).filter
              (fun u => u != c.url)).toFinset) =
              (((cs.map CallItem.url).filter
                (fun u => (cacheLookup s.cache u).isNone)).toFinset).erase
                c.url := by
            ext a
            simp only [List.mem_toFinset, List.mem_filter, Finset.mem_erase,
              bne_iff_ne, ne_eq, Option.isNone_iff_eq_none]
            tauto
          rw [hto] at hih
          have hcard := Finset.card_erase_add_one
            (s := insert c.url (((cs.map CallItem.url).filter
              (fun u => (cacheLookup s.cache u).isNone)).toFinset))
            (a := c.url) (Finset.mem_insert_self _ _)
          rw [Finset.erase_insert_eq_erase] at hcard
          simp only [hres, hc, Option.isSome_some, Option.isSome_none,
            Bool.not_false, Bool.and_self, if_true]
          omega

/-- C1: within one job, the downloader performs at most one completed
network download per distinct URL.  (i) A URL already in the
`downloadCache` returns the cached relative path immediately, with the
same result and unchanged state in every world, so no network request is
involved; (ii) every call that returns successfully has recorded its URL
against the returned relative path in the cache before returning;
(iii) consequently, over any sequence of downloader calls sharing the
job cache (initially empty), the number of calls that complete a network
download is bounded by the number of distinct URLs in the sequence,
however often each URL recurs. -/
theorem c1_download_dedup :
    (∀ (md5 : Content → String) (sep : Char) (w : World)
        (url td bd : String) (f : Option String) (s : DLState) (p : String),
      cacheLookup s.cache url = some p →
      downloadFile md5 sep w url td bd f s = (some p, s)) ∧
    (∀ (md5 : Content → String) (sep : Char) (w : World)
        (url td bd : String) (f : Option String) (s : DLState) (r : String)
        (s' : DLState),
      downloadFile md5 sep w url td bd f s = (some r, s') →
      cacheLookup s'.cache url = some r) ∧
    (∀ (md5 : Content → String) (sep : Char) (w : World) (base : String)
        (calls : List CallItem) (s : DLState),
      s.cache = [] →
      (runSeq md5 sep w base calls s).2 ≤
        ((calls.map CallItem.url).dedup).length) := by
  refine ⟨fun md5 sep w url td bd f s p h => dl_hit md5 sep w url td bd f s p h,
    fun md5 sep w url td bd f s r s' h =>
      dl_success_records md5 sep w url td bd f s r s' h,
    fun md5 sep w base calls s hs => ?_⟩
  have h := runSeq_bound md5 sep w base calls s
  rw [hs] at h
  have hfilter : ((calls.map CallItem.url).filter
      (fun u => (cacheLookup ([] : List (String × String)) u).isNone)) =
      calls.map CallItem.url := by
    apply List.filter_eq_self.mpr
    intro a _
    rfl
  rw [hfilter, List.card_toFinset] at h
  exact h

/-- Witness for C1: a cache hit returns the cached path with the state
unchanged, in a world whose network always fails. -/
theorem c1_download_dedup_witness :
    downloadFile (fun _ => "h") '/'
      ⟨fun _ => none, fun _ => false, fun _ => RenameRes.ok⟩
      "u" "t" "b" none ⟨[("u", "p")], []⟩ = (some "p", ⟨[("u", "p")], []⟩) :=
  c1_download_dedup.1 (fun _ => "h") '/'
    ⟨fun _ => none, fun _ => false, fun _ => RenameRes.ok⟩
    "u" "t" "b" none ⟨[("u", "p")], []⟩ "p" (by rfl)

/-- C10: when the downloader fails (throws), the `downloadCache` is left
unchanged, no entry is added for the failed URL, and the URL remains a
cache miss, so a later call with the same URL attempts a fresh
download. -/
theorem c10_failure_leaves_cache (md5 : Content → String) (sep : Char)
    (w : World) (url td bd : String) (f : Option String) (s s' : DLState)
    (h : downloadFile md5 sep w url td bd f s = (none, s')) :
    s'.cache = s.cache ∧ cacheLookup s'.cache url = none := by
  have hcache := dl_fail_state md5 sep w url td bd f s s' h
  refine ⟨hcache, ?_⟩
  cases hc : cacheLookup s.cache url with
  | some p =>
    have hd := dl_hit md5 sep w url td bd f s p hc
    rw [hd] at h
    simp at h
  | none => rw [hcache]; exact hc

/-- Witness for C10: a network failure on a fresh URL leaves the empty
cache empty and the URL uncached. -/
theorem c10_failure_leaves_cache_witness :
    (DLState.mk [] []).cache = (DLState.mk [] []).cache ∧
    cacheLookup (DLState.mk [] []).cache "u" = none :=
  c10_failure_leaves_cache (fun _ => "h") '/'
    ⟨fun _ => none, fun _ => false, fun _ => RenameRes.ok⟩
    "u" "t" "b" none ⟨[], []⟩ ⟨[], []⟩ (by rfl)

/-- C3: two distinct URLs with byte-identical content, downloaded into the
same category directory with equal resolved extensions, share one file on
disk: the second call computes the same MD5-based filename, finds it
already present, skips promotion (its temp copy is discarded), and both
URLs map to the shared relative path in the cache. -/
theorem c3_content_dedup (md5 : Content → String) (sep : Char) (w : World)
    (u1 u2 td bd : String) (f1 f2 : Option String) (s : DLState)
    (c : Content) (fa rel : String)
    (hne : u1 ≠ u2)
    (hm1 : cacheLookup s.cache u1 = none)
    (hm2 : cacheLookup s.cache u2 = none)
    (hn1 : w.net u1 = some c)
    (hn2 : w.net u2 = some c)
    (hext : finalExtOf sep u2 f2 = finalExtOf sep u1 f1)
    (hfa : fa = pathJoin sep td (md5 c ++ finalExtOf sep u1 f1))
    (hrelv : rel = relPathOf sep bd fa)
    (hdisk : s.disk.contains fa = false)
    (hren : w.ren fa ≠ RenameRes.fail)
    (hrel : rel ≠ "") :
    downloadFile md5 sep w u1 td bd f1 s =
      (some rel, ⟨(u1, rel) :: s.cache, fa :: s.disk⟩) ∧
    downloadFile md5 sep w u2 td bd f2
        ⟨(u1, rel) :: s.cache, fa :: s.disk⟩ =
      (some rel, ⟨(u2, rel) :: (u1, rel) :: s.cache, fa :: s.disk⟩) ∧
    cacheLookup ((u2, rel) :: (u1, rel) :: s.cache) u1 = some rel ∧
    cacheLookup ((u2, rel) :: (u1, rel) :: s.cache) u2 = some rel := by
  have h1 : downloadFile md5 sep w u1 td bd f1 s =
      (some rel, ⟨(u1, rel) :: s.cache, fa :: s.disk⟩) := by
    unfold downloadFile
    simp only [hm1, hn1]
    rw [← hfa, hdisk]
    simp only [Bool.false_eq_true, if_false]
    cases hr : w.ren fa with
    | fail => exact absurd hr hren
    | ok => simp only [← hrelv, if_neg hrel]
    | exdev => simp only [← hrelv, if_neg hrel]
  have hm2' : cacheLookup ((u1, rel) :: s.cache) u2 = none := by
    rw [cacheLookup_cons_ne _ _ _ _ (Ne.symm hne)]
    exact hm2
  have h2 : downloadFile md5 sep w u2 td bd f2
      ⟨(u1, rel) :: s.cache, fa :: s.disk⟩ =
      (some rel, ⟨(u2, rel) :: (u1, rel) :: s.cache, fa :: s.disk⟩) := by
    unfold downloadFile
    simp only [hm2', hn2]
    rw [hext, ← hfa]
    have hcont : (fa :: s.disk).contains fa = true := by simp
    simp only [hcont, if_true]
    simp only [← hrelv, if_neg hrel]
  refine ⟨h1, h2, ?_, ?_⟩
  · rw [cacheLookup_cons_ne _ _ _ _ hne]
    exact cacheLookup_cons_self _ _ _
  · exact cacheLookup_cons_self _ _ _

/-- Witness for C3: two URLs with the same content and extension share
the single on-disk file and the single relative path. -/
theorem c3_content_dedup_witness :
    downloadFile (fun _ => "h") '/'
      ⟨fun _ => some [1], fun _ => false, fun _ => RenameRes.ok⟩
      "https://a/x.png" "b/att" "b" none ⟨[], []⟩ =
      (some "att/h.png", ⟨[("https://a/x.png", "att/h.png")], ["b/att/h.png"]⟩) ∧
    downloadFile (fun _ => "h") '/'
      ⟨fun _ => some [1], fun _ => false, fun _ => RenameRes.ok⟩
      "https://a/y.png" "b/att" "b" none
      ⟨[("https://a/x.png", "att/h.png")], ["b/att/h.png"]⟩ =
      (some "att/h.png",
        ⟨[("https://a/y.png", "att/h.png"), ("https://a/x.png", "att/h.png")],
         ["b/att/h.png"]⟩) ∧
    cacheLookup [("https://a/y.png", "att/h.png"),
      ("https://a/x.png", "att/h.png")] "https://a/x.png" = some "att/h.png" ∧
    cacheLookup [("https://a/y.png", "att/h.png"),
      ("https://a/x.png", "att/h.png")] "https://a/y.png" = some "att/h.png" :=
  c3_content_dedup (fun _ => "h") '/'
    ⟨fun _ => some [1], fun _ => false, fun _ => RenameRes.ok⟩
    "https://a/x.png" "https://a/y.png" "b/att" "b" none none ⟨[], []⟩
    [1] "b/att/h.png" "att/h.png" (by decide) (by rfl) (by rfl) (by rfl)
    (by rfl) (by rfl) (by rfl) (by rfl) (by rfl) (by decide) (by decide)

/-! ### Lemmas about splitting and joining path strings -/

theorem toList_asString (l : List Char) : (l.asString).toList = l := rfl

theorem splitChar_nil (sep : Char) : splitChar sep [] = [[]] := rfl

theorem splitChar_ne_nil (sep : Char) : ∀ l : List Char, splitChar sep l ≠ []
  | [] => by simp [splitChar]
  | c :: rest => by
    unfold splitChar
    by_cases hc : c = sep
    · simp [hc]
    · have := splitChar_ne_nil sep rest
      simp only [hc, if_false]
      cases hsp : splitChar sep rest with
      | nil => exact absurd hsp this
      | cons p ps => simp

theorem splitChar_cons_self (sep : Char) (rest : List Char) :
    splitChar sep (sep :: rest) = [] :: splitChar sep rest := by
  simp [splitChar]

theorem splitChar_cons_ne (sep c : Char) (rest : List Char) (hc : ¬ c = sep) :
    splitChar sep (c :: rest) =
      (c :: (splitChar sep rest).headD []) :: (splitChar sep rest).tail := by
  simp only [splitChar, if_neg hc]
  cases hsp : splitChar sep rest with
  | nil => exact absurd hsp (splitChar_ne_nil sep rest)
  | cons p ps => simp

theorem splitChar_append_sep (sep : Char) (b : List Char) :
    ∀ a : List Char, splitChar sep (a ++ sep :: b) =
      splitChar sep a ++ splitChar sep b
  | [] => by
    rw [List.nil_append, splitChar_cons_self, splitChar_nil]
    rfl
  | c :: rest => by
    rw [List.cons_append]
    by_cases hc : c = sep
    · rw [hc]
      rw [splitChar_cons_self, splitChar_cons_self,
        splitChar_append_sep sep b rest]
      rfl
    · rw [splitChar_cons_ne sep c _ hc, splitChar_cons_ne sep c rest hc,
        splitChar_append_sep sep b rest]
      cases hsp : splitChar sep rest with
      | nil => exact absurd hsp (splitChar_ne_nil sep rest)
      | cons p ps => simp

theorem splitChar_no_sep (sep : Char) :
    ∀ l : List Char, sep ∉ l → splitChar sep l = [l]
  | [], _ => rfl
  | c :: rest, h => by
    have hc : ¬ c = sep := fun hcc => h (hcc ▸ List.mem_cons_self c rest)
    have hrest : sep ∉ rest := fun hm => h (List.mem_cons_of_mem c hm)
    rw [splitChar_cons_ne sep c rest hc, splitChar_no_sep sep rest hrest]
    rfl

theorem mem_splitChar_no_sep (sep : Char) :
    ∀ (l : List Char) (p : List Char), p ∈ splitChar sep l → sep ∉ p
  | [], p, hp => by
    rw [splitChar_nil] at hp
    simp at hp
    simp [hp]
  | c :: rest, p, hp => by
    by_cases hc : c = sep
    · rw [hc] at hp
      rw [splitChar_cons_self] at hp
      rcases List.mem_cons.mp hp with h | h
      · simp [h]
      · exact mem_splitChar_no_sep sep rest p h
    · rw [splitChar_cons_ne sep c rest hc] at hp
      rcases List.mem_cons.mp hp with h | h
      · subst h
        intro hm
        rcases List.mem_cons.mp hm with h2 | h2
        · exact hc h2.symm
        · cases hsp : splitChar sep rest with
          | nil => exact absurd hsp (splitChar_ne_nil sep rest)
          | cons q qs =>
            rw [hsp] at h2
            simp only [List.headD_cons] at h2
            exact mem_splitChar_no_sep sep rest q
              (by rw [hsp]; exact List.mem_cons_self q qs) h2
      · cases hsp : splitChar sep rest with
        | nil => exact absurd hsp (splitChar_ne_nil sep rest)
        | cons q qs =>
          rw [hsp] at h
          simp only [List.tail_cons] at h
          exact mem_splitChar_no_sep sep rest p
            (by rw [hsp]; exact List.mem_cons_of_mem q h)

theorem splitChar_joinChar (c : Char) :
    ∀ ps : List (List Char), ps ≠ [] → (∀ p ∈ ps, c ∉ p) →
      splitChar c (joinChar c ps) = ps
  | [], h, _ => absurd rfl h
  | [p], _, hps => by
    simp only [joinChar]
    exact splitChar_no_sep c p (hps p (List.mem_singleton.mpr rfl))
  | p :: q :: rest, _, hps => by
    have h1 : joinChar c (p :: q :: rest) = p ++ c :: joinChar c (q :: rest) :=
      rfl
    rw [h1, splitChar_append_sep,
      splitChar_no_sep c p (hps p (List.mem_cons_self _ _)),
      splitChar_joinChar c (q :: rest) (by simp)
        (fun x hx => hps x (List.mem_cons_of_mem p hx))]
    rfl

theorem mem_joinChar (c : Char) :
    ∀ (ps : List (List Char)) (ch : Char), ch ∈ joinChar c ps →
      ch = c ∨ ∃ p ∈ ps, ch ∈ p
  | [], ch, h => by simp [joinChar] at h
  | [p], ch, h => by
    simp only [joinChar] at h
    exact Or.inr ⟨p, List.mem_singleton.mpr rfl, h⟩
  | p :: q :: rest, ch, h => by
    have h1 : joinChar c (p :: q :: rest) = p ++ c :: joinChar c (q :: rest) :=
      rfl
    rw [h1] at h
    rcases List.mem_append.mp h with hmem | hmem
    · exact Or.inr ⟨p, List.mem_cons_self _ _, hmem⟩
    · cases hmem with
      | head => exact Or.inl rfl
      | tail _ hm2 =>
        rcases mem_joinChar c (q :: rest) ch hm2 with h3 | ⟨x, hx, hchx⟩
        · exact Or.inl h3
        · exact Or.inr ⟨x, List.mem_cons_of_mem p hx, hchx⟩

theorem joinChar_head (c : Char) (p : List Char) (ps : List (List Char))
    (hp : p ≠ []) : (joinChar c (p :: ps)).head? = p.head? := by
  cases ps with
  | nil => rfl
  | cons q rest =>
    have h1 : joinChar c (p :: q :: rest) = p ++ c :: joinChar c (q :: rest) :=
      rfl
    rw [h1]
    cases p with
    | nil => exact absurd rfl hp
    | cons a as => rfl

theorem sanitizeExt_chars (d : String) :
    ∀ ch ∈ (sanitizeExt d).toList, extChar ch = true := by
  intro ch hch
  unfold sanitizeExt at hch
  by_cases hd : 1 < d.length
  · rw [if_pos hd, toList_asString] at hch
    exact (List.mem_filter.mp hch).2
  · rw [if_neg hd] at hch
    fin_cases hch <;> decide


/-- Inversion of a successful cache-miss call: the returned path is the
relative-path computation applied to the joined hash-plus-extension
filename for the fetched content. -/
theorem dl_success_rel (md5 : Content → String) (sep : Char) (w : World)
    (url td bd : String) (f : Option String) (s : DLState) (r : String)
    (s' : DLState) (hmiss : cacheLookup s.cache url = none)
    (h : downloadFile md5 sep w url td bd f s = (some r, s')) :
    ∃ c, w.net url = some c ∧
      r = relPathOf sep bd
        (pathJoin sep td (md5 c ++ finalExtOf sep url f)) := by
  unfold downloadFile at h
  rw [hmiss] at h
  cases hnet : w.net url with
  | none => simp [hnet] at h
  | some c =>
    simp only [hnet] at h
    refine ⟨c, rfl, ?_⟩
    split at h
    · split at h
      · simp_all
      · simp only [Prod.mk.injEq, Option.some.injEq] at h
        exact h.1.symm
    · split at h
      · simp_all
      · split at h
        · simp_all
        · simp only [Prod.mk.injEq, Option.some.injEq] at h
          exact h.1.symm

/-- C8: when the target category directory lies under the export root
(`td = bd ++ sep ++ sub` with a well-formed relative subpath `sub`) and
the hash function produces nonempty names free of dots and separators (as
hex MD5 digests are), every relative path returned by a completed
download does not start with a slash, splits on the forward slash into
nonempty segments none of which is the traversal segment of two dots, and
contains no backslash when the host separator is the backslash, i.e. it
uses forward slashes regardless of host OS. -/
theorem c8_path_format (md5 : Content → String) (sep : Char)
    (w : World) (url td bd : String) (f : Option String) (s : DLState)
    (r : String) (s' : DLState) (sub : List Char)
    (hsep : sep = '/' ∨ sep = '\\')
    (htd : td.toList = bd.toList ++ sep :: sub)
    (hsub : ∀ seg ∈ splitChar sep sub,
      seg ≠ [] ∧ seg ≠ ['.', '.'] ∧ '/' ∉ seg)
    (hmd5 : ∀ cont : Content, (md5 cont).toList ≠ [] ∧
      ∀ ch ∈ (md5 cont).toList, ch ≠ '.' ∧ ch ≠ '/' ∧ ch ≠ '\\')
    (hmiss : cacheLookup s.cache url = none)
    (h : downloadFile md5 sep w url td bd f s = (some r, s')) :
    (∀ ch, r.toList.head? = some ch → ch ≠ '/') ∧
    (∀ seg ∈ splitChar '/' r.toList, seg ≠ [] ∧ seg ≠ ['.', '.']) ∧
    (sep = '\\' → '\\' ∉ r.toList) := by
  obtain ⟨c, hnet, hr⟩ := dl_success_rel md5 sep w url td bd f s r s' hmiss h
  have hextchars : ∀ ch ∈ (finalExtOf sep url f).toList, extChar ch = true := by
    unfold finalExtOf
    exact sanitizeExt_chars _
  have hext_ne : ∀ ch, extChar ch = true → ch ≠ '/' ∧ ch ≠ '\\' := by
    intro ch hc
    constructor <;> intro he <;> rw [he] at hc <;> exact absurd hc (by decide)
  obtain ⟨hmne, hmch⟩ := hmd5 c
  have hnam : (md5 c ++ finalExtOf sep url f).toList =
      (md5 c).toList ++ (finalExtOf sep url f).toList := rfl
  have hnosep : ∀ ch ∈ (md5 c ++ finalExtOf sep url f).toList,
      ch ≠ sep ∧ ch ≠ '/' := by
    intro ch hch
    rw [hnam] at hch
    rcases List.mem_append.mp hch with hm | hm
    · have h3 := hmch ch hm
      refine ⟨?_, h3.2.1⟩
      rcases hsep with h1 | h1 <;> rw [h1]
      · exact h3.2.1
      · exact h3.2.2
    · have h3 := hext_ne ch (hextchars ch hm)
      refine ⟨?_, h3.1⟩
      rcases hsep with h1 | h1 <;> rw [h1]
      · exact h3.1
      · exact h3.2
  have hfal : (pathJoin sep td (md5 c ++ finalExtOf sep url f)).toList =
      (bd.toList ++ [sep]) ++
        (sub ++ sep :: (md5 c ++ finalExtOf sep url f).toList) := by
    have h0 : (pathJoin sep td (md5 c ++ finalExtOf sep url f)).toList =
        td.toList ++ [sep] ++ (md5 c ++ finalExtOf sep url f).toList := rfl
    rw [h0, htd]
    simp [List.append_assoc]
  have hrel2 : pathRelativeL sep bd.toList
      (pathJoin sep td (md5 c ++ finalExtOf sep url f)).toList =
      sub ++ sep :: (md5 c ++ finalExtOf sep url f).toList := by
    unfold pathRelativeL
    rw [hfal]
    rw [if_pos (by
      rw [List.isPrefixOf_iff_prefix]; exact List.prefix_append _ _)]
    have hlen : bd.toList.length + 1 = (bd.toList ++ [sep]).length := by simp
    rw [hlen, List.drop_left]
  have hnosepname : sep ∉ (md5 c ++ finalExtOf sep url f).toList :=
    fun hm => (hnosep sep hm).1 rfl
  have hsplit : splitChar sep
      (sub ++ sep :: (md5 c ++ finalExtOf sep url f).toList) =
      splitChar sep sub ++ [(md5 c ++ finalExtOf sep url f).toList] := by
    rw [splitChar_append_sep, splitChar_no_sep sep _ hnosepname]
  have hrl : r.toList = joinChar '/'
      (splitChar sep sub ++ [(md5 c ++ finalExtOf sep url f).toList]) := by
    rw [hr]
    unfold relPathOf
    rw [toList_asString, hrel2, hsplit]
  obtain ⟨p1, ps, hP⟩ : ∃ p1 ps, splitChar sep sub = p1 :: ps := by
    cases hsp : splitChar sep sub with
    | nil => exact absurd hsp (splitChar_ne_nil sep sub)
    | cons a b => exact ⟨a, b, rfl⟩
  have hp1 := hsub p1 (by rw [hP]; exact List.mem_cons_self _ _)
  have hall : ∀ p ∈ splitChar sep sub ++
      [(md5 c ++ finalExtOf sep url f).toList], '/' ∉ p := by
    intro p hp
    rcases List.mem_append.mp hp with hm | hm
    · exact (hsub p hm).2.2
    · rw [List.mem_singleton.mp hm]
      exact fun hmm => (hnosep '/' hmm).2 rfl
  refine ⟨?_, ?_, ?_⟩
  · intro ch hch
    rw [hrl, hP, List.cons_append, joinChar_head '/' p1 _ hp1.1] at hch
    have hchm : ch ∈ p1 := by
      cases p1 with
      | nil => exact absurd rfl hp1.1
      | cons a as =>
        simp only [List.head?_cons, Option.some.injEq] at hch
        exact hch ▸ List.mem_cons_self a as
    exact fun hEq => hp1.2.2 (hEq ▸ hchm)
  · intro seg hseg
    rw [hrl, splitChar_joinChar '/' _ (by simp) hall] at hseg
    rcases List.mem_append.mp hseg with hm | hm
    · exact ⟨(hsub seg hm).1, (hsub seg hm).2.1⟩
    · rw [List.mem_singleton.mp hm]
      constructor
      · intro hnil
        rw [hnam] at hnil
        exact hmne (List.append_eq_nil.mp hnil).1
      · intro hdots
        rw [hnam] at hdots
        cases hml : (md5 c).toList with
        | nil => exact hmne hml
        | cons a as =>
          rw [hml, List.cons_append] at hdots
          injection hdots with h1 h2
          exact (hmch a (by rw [hml]; exact List.mem_cons_self a as)).1 h1
  · intro hbs hmem
    rw [hrl] at hmem
    rcases mem_joinChar '/' _ '\\' hmem with hq | ⟨p, hp, hchp⟩
    · exact absurd hq (by decide)
    · rcases List.mem_append.mp hp with hm | hm
      · have h4 := mem_splitChar_no_sep sep sub p hm
        rw [hbs] at h4
        exact h4 hchp
      · rw [List.mem_singleton.mp hm] at hchp
        have h4 := (hnosep '\\' hchp).1
        rw [hbs] at h4
        exact h4 rfl

/-- Witness for C8 at a concrete avatar download on a posix host. -/
theorem c8_path_format_witness :
    (∀ ch, ("downloaded_files/avatars/9f2ab.png").toList.head? = some ch →
      ch ≠ '/') ∧
    (∀ seg ∈ splitChar '/' ("downloaded_files/avatars/9f2ab.png").toList,
      seg ≠ [] ∧ seg ≠ ['.', '.']) ∧
    ('/' = '\\' → '\\' ∉ ("downloaded_files/avatars/9f2ab.png").toList) :=
  c8_path_format (fun _ => "9f2ab") '/'
    ⟨fun _ => some [1], fun _ => false, fun _ => RenameRes.ok⟩
    "https://a/x.png" "/e/downloaded_files/avatars" "/e" none ⟨[], []⟩
    "downloaded_files/avatars/9f2ab.png"
    ⟨[("https://a/x.png", "downloaded_files/avatars/9f2ab.png")],
     ["/e/downloaded_files/avatars/9f2ab.png"]⟩
    ("downloaded_files/avatars".toList)
    (Or.inl rfl) (by decide) (by decide)
    (fun _ => (by decide : ("9f2ab" : String).toList ≠ [] ∧
      ∀ ch ∈ ("9f2ab" : String).toList, ch ≠ '.' ∧ ch ≠ '/' ∧ ch ≠ '\\'))
    (by rfl) (by rfl)

/-! ### Step lemmas for the recursive processor -/

theorem processData_str (E : PEnv) (w : World) (heap : Heap) (s : String)
    (seen : List Nat) (st : DLState) :
    processData E w heap (JVal.vstr s) seen st =
      (OutJson.str (processString E w s st).1, (processString E w s st).2) := by
  rw [processData.eq_def]

theorem processData_int (E : PEnv) (w : World) (heap : Heap) (n : Int)
    (seen : List Nat) (st : DLState) :
    processData E w heap (JVal.vint n) seen st = (OutJson.int n, st) := by
  rw [processData.eq_def]

theorem processData_bool (E : PEnv) (w : World) (heap : Heap) (b : Bool)
    (seen : List Nat) (st : DLState) :
    processData E w heap (JVal.vbool b) seen st = (OutJson.bool b, st) := by
  rw [processData.eq_def]

theorem processData_null (E : PEnv) (w : World) (heap : Heap)
    (seen : List Nat) (st : DLState) :
    processData E w heap JVal.vnull seen st = (OutJson.null, st) := by
  rw [processData.eq_def]

theorem processData_ref_seen (E : PEnv) (w : World) (heap : Heap) (i : Nat)
    (seen : List Nat) (st : DLState) (h : seen.contains i = true) :
    processData E w heap (JVal.vref i) seen st =
      (OutJson.str "[Circular Reference]", st) := by
  rw [processData.eq_def]
  simp only [dif_pos h]

theorem processData_ref_arr (E : PEnv) (w : World) (heap : Heap) (i : Nat)
    (seen : List Nat) (st : DLState) (items : List JVal)
    (hns : ¬ seen.contains i = true)
    (hl : lookupNode heap i = some (JNode.arr items)) :
    processData E w heap (JVal.vref i) seen st =
      (OutJson.arr (processItems E w heap items (i :: seen) st).1,
       (processItems E w heap items (i :: seen) st).2) := by
  rw [processData, dif_neg hns]
  split
  all_goals simp_all

theorem processData_ref_obj (E : PEnv) (w : World) (heap : Heap) (i : Nat)
    (seen : List Nat) (st : DLState) (fields : List (String × JVal))
    (hns : ¬ seen.contains i = true)
    (hl : lookupNode heap i = some (JNode.obj fields)) :
    processData E w heap (JVal.vref i) seen st =
      (OutJson.obj (processFields E w heap fields (avatarStep E w fields st).1
        (i :: seen) (avatarStep E w fields st).2).1,
       (processFields E w heap fields (avatarStep E w fields st).1
        (i :: seen) (avatarStep E w fields st).2).2) := by
  rw [processData, dif_neg hns]
  split
  all_goals simp_all

/-- C2: cycle safety of `processDataRecursively`.  The function is total
in Lean (its termination proof is the measure of heap nodes off the
traversal path), so it terminates on every heap, cyclic ones included.
(i) A node reference met again while still on the active traversal path
is replaced by the sentinel string, with no further recursion and the
download state untouched; (ii) on the one-node cyclic heap the output is
the array holding the sentinel; (iii) a node shared by two sibling paths
is off the path again at its second visit and is processed normally, not
replaced by the sentinel, because `seen.delete` runs when a subtree
completes. -/
theorem c2_cycle_safety :
    (∀ (E : PEnv) (w : World) (heap : Heap) (i : Nat) (seen : List Nat)
        (st : DLState), seen.contains i = true →
      processData E w heap (JVal.vref i) seen st =
        (OutJson.str "[Circular Reference]", st)) ∧
    (∀ (E : PEnv) (w : World) (st : DLState),
      processData E w [(0, JNode.arr [JVal.vref 0])] (JVal.vref 0) [] st =
        (OutJson.arr [OutJson.str "[Circular Reference]"], st)) ∧
    (∀ (E : PEnv) (w : World) (st : DLState),
      processData E w
        [(0, JNode.arr [JVal.vref 1, JVal.vref 1]),
         (1, JNode.arr [JVal.vint 7])]
        (JVal.vref 0) [] st =
        (OutJson.arr [OutJson.arr [OutJson.int 7],
          OutJson.arr [OutJson.int 7]], st)) := by
  refine ⟨fun E w heap i seen st h =>
    processData_ref_seen E w heap i seen st h, ?_, ?_⟩
  · intro E w st
    rw [processData_ref_arr E w _ 0 [] st [JVal.vref 0] (by decide) (by rfl),
      processItems, processData_ref_seen E w _ 0 [0] st (by decide),
      processItems]
  · intro E w st
    have h1 : ∀ st2 : DLState, processData E w
        [(0, JNode.arr [JVal.vref 1, JVal.vref 1]),
         (1, JNode.arr [JVal.vint 7])]
        (JVal.vref 1) [0] st2 = (OutJson.arr [OutJson.int 7], st2) := by
      intro st2
      rw [processData_ref_arr E w _ 1 [0] st2 [JVal.vint 7] (by decide)
        (by rfl), processItems, processData_int, processItems]
    rw [processData_ref_arr E w _ 0 [] st [JVal.vref 1, JVal.vref 1]
      (by decide) (by rfl), processItems, h1, processItems, h1, processItems]

/-- Witness for C2: the sentinel case applied at a concrete reference
already on the traversal path. -/
theorem c2_cycle_safety_witness :
    processData ⟨fun _ => "h", '/', "d", "b"⟩
      ⟨fun _ => none, fun _ => false, fun _ => RenameRes.ok⟩
      [] (JVal.vref 5) [5] ⟨[], []⟩ =
      (OutJson.str "[Circular Reference]", ⟨[], []⟩) :=
  c2_cycle_safety.1 ⟨fun _ => "h", '/', "d", "b"⟩
    ⟨fun _ => none, fun _ => false, fun _ => RenameRes.ok⟩ [] 5 [5] ⟨[], []⟩
    (by decide)

/-! ### Lemmas for graceful degradation under download failure -/

/-- With a failing network and an empty cache, a downloader call fails and
returns the state unchanged. -/
theorem dl_allfail (md5 : Content → String) (sep : Char) (w : World)
    (url td bd : String) (f : Option String) (st : DLState)
    (hw : ∀ u, w.net u = none) (hc : st.cache = []) :
    downloadFile md5 sep w url td bd f st = (none, st) := by
  unfold downloadFile
  rw [show cacheLookup st.cache url = none from by rw [hc]; rfl, hw]

theorem urlPhase_fail (E : PEnv) (w : World) (hw : ∀ u, w.net u = none) :
    ∀ (ms : List (List Char)) (cs : List Char) (st : DLState),
      st.cache = [] → urlPhase E w ms cs st = (cs, st)
  | [], cs, st, _ => rfl
  | m :: rest, cs, st, hc => by
    rw [urlPhase, dl_allfail E.md5 E.sep w m.asString _ E.baseDir none st hw hc]
    exact urlPhase_fail E w hw rest cs st hc

/-- With a failing network and an empty cache, `processSingleEmote` keeps
the original markdown and the state. -/
theorem pse_fail (E : PEnv) (w : World) (m : EmMatch) (st : DLState)
    (hw : ∀ u, w.net u = none) (hc : st.cache = []) :
    processSingleEmote E w m st = (m.full, st) := by
  unfold processSingleEmote
  cases hf : findEmote w m.eid with
  | none => rfl
  | some ue =>
    simp only [dl_allfail E.md5 E.sep w ue.1 (pathJoin E.sep E.dlRoot "emotes")
      E.baseDir (some ue.2) st hw hc]

theorem emPhase_fail (E : PEnv) (w : World) (hw : ∀ u, w.net u = none) :
    ∀ (ms : List EmMatch) (cs : List Char) (st : DLState),
      st.cache = [] → emPhase E w ms cs st = (cs, st)
  | [], cs, st, _ => rfl
  | m :: rest, cs, st, hc => by
    rw [emPhase, pse_fail E w m st hw hc]
    simp only [ne_eq, not_true_eq_false, if_false]
    exact emPhase_fail E w hw rest cs st hc

/-- With a failing network and an empty cache, a string node is preserved
verbatim: original URLs and emote markdown are left in place. -/
theorem processString_fail (E : PEnv) (w : World) (s : String) (st : DLState)
    (hw : ∀ u, w.net u = none) (hc : st.cache = []) :
    processString E w s st = (s, st) := by
  have h1 : (if gifTestL s.toList then (s.toList, st)
      else urlPhase E w (urlMatchesL s.toList) s.toList st) = (s.toList, st) := by
    split
    · rfl
    · exact urlPhase_fail E w hw _ _ st hc
  have h2 : (if s.toList.contains '<' && s.toList.contains ':' &&
        s.toList.contains '>' then
      emPhase E w (emMatchesL s.toList) s.toList st
      else (s.toList, st)) = (s.toList, st) := by
    split
    · exact emPhase_fail E w hw _ _ st hc
    · rfl
  simp only [processString, h1, h2]
  rfl

/-- With a failing network and an empty cache, the avatar of every
user-shaped object resolves to null. -/
theorem avatarStep_fail (E : PEnv) (w : World)
    (fields : List (String × JVal)) (st : DLState)
    (hw : ∀ u, w.net u = none) (hc : st.cache = [])
    (hu : isUserObj fields = true) :
    avatarStep E w fields st = (some JVal.vnull, st) := by
  unfold avatarStep
  rw [if_pos hu]
  cases hav : getField fields "avatar" with
  | none => simp only [hav]
  | some v =>
    cases v with
    | vstr hsh =>
      simp only [hav]
      cases hcd : constructAvatarCdnUrl
          (match getField fields "id" with
           | some (JVal.vstr s) => s
           | _ => "") hsh with
      | none => simp only [hcd]
      | some ue =>
        simp only [hcd,
          dl_allfail E.md5 E.sep w ue.1 (pathJoin E.sep E.dlRoot "avatars")
            E.baseDir (some ue.2) st hw hc]
    | vint n => simp only [hav]
    | vbool b => simp only [hav]
    | vnull => simp only [hav]
    | vref i => simp only [hav]

/-- With the avatar overwrite set to null, every `avatar` field of the
rebuilt object is null. -/
theorem processFields_avatar_null (E : PEnv) (w : World) (heap : Heap) :
    ∀ (fields : List (String × JVal)) (seen : List Nat) (st : DLState)
      (o : OutJson),
      ("avatar", o) ∈ (processFields E w heap fields (some JVal.vnull)
        seen st).1 → o = OutJson.null
  | [], seen, st, o, h => by
    rw [processFields] at h
    simp at h
  | (k, v) :: rest, seen, st, o, h => by
    by_cases hk : k = "avatar"
    · have heq : processFields E w heap ((k, v) :: rest) (some JVal.vnull)
          seen st =
          (("avatar", OutJson.null) ::
             (processFields E w heap rest (some JVal.vnull) seen st).1,
           (processFields E w heap rest (some JVal.vnull) seen st).2) := by
        rw [processFields]
        simp [hk, isStr, processData_null]
      rw [heq] at h
      rcases List.mem_cons.mp h with h1 | h1
      · exact (Prod.mk.injEq .. ▸ h1).2
      · exact processFields_avatar_null E w heap rest seen st o h1
    · have heq : processFields E w heap ((k, v) :: rest) (some JVal.vnull)
          seen st =
          ((k, (processData E w heap v seen st).1) ::
             (processFields E w heap rest (some JVal.vnull) seen
               (processData E w heap v seen st).2).1,
           (processFields E w heap rest (some JVal.vnull) seen
             (processData E w heap v seen st).2).2) := by
        rw [processFields]
        simp [hk]
      rw [heq] at h
      rcases List.mem_cons.mp h with h1 | h1
      · exact absurd ((Prod.mk.injEq .. ▸ h1).1).symm hk
      · exact processFields_avatar_null E w heap rest seen _ o h1

/-- C4: download failures are absorbed at their call sites and never
escape the batch.  Under a world where every download fails: (i) every
string node is returned verbatim, so original in-string URLs and emote
markdown are preserved and the state is untouched (the URL loop and the
emote loop each catch the failure and keep the original text); (ii) every
user-shaped object is still rebuilt, with its avatar field set to null.
Since `processData` is total, processing always completes and returns a
processed batch; no exception path exists for these failures. -/
theorem c4_graceful_failure :
    (∀ (E : PEnv) (w : World) (heap : Heap) (s : String) (seen : List Nat)
        (st : DLState), (∀ u, w.net u = none) → st.cache = [] →
      processData E w heap (JVal.vstr s) seen st = (OutJson.str s, st)) ∧
    (∀ (E : PEnv) (w : World) (heap : Heap) (i : Nat) (seen : List Nat)
        (st : DLState) (fields : List (String × JVal)),
      (∀ u, w.net u = none) → st.cache = [] →
      ¬ seen.contains i = true →
      lookupNode heap i = some (JNode.obj fields) →
      isUserObj fields = true →
      ∃ ofields st',
        processData E w heap (JVal.vref i) seen st =
          (OutJson.obj ofields, st') ∧
        ∀ o, ("avatar", o) ∈ ofields → o = OutJson.null) := by
  constructor
  · intro E w heap s seen st hw hc
    rw [processData_str, processString_fail E w s st hw hc]
  · intro E w heap i seen st fields hw hc hns hl hu
    rw [processData_ref_obj E w heap i seen st fields hns hl,
      avatarStep_fail E w fields st hw hc hu]
    exact ⟨_, _, rfl, fun o ho =>
      processFields_avatar_null E w heap fields (i :: seen) st o ho⟩

/-- Witness for C4: a concrete user object with a valid avatar hash, in a
world where every download fails, is rebuilt with a null avatar. -/
theorem c4_graceful_failure_witness :
    ∃ ofields st',
      processData ⟨fun _ => "h", '/', "d", "b"⟩
        ⟨fun _ => none, fun _ => true, fun _ => RenameRes.ok⟩
        [(0, JNode.obj [("id", JVal.vstr "42"), ("username", JVal.vstr "u"),
          ("avatar", JVal.vstr "abcdef12345")])]
        (JVal.vref 0) [] ⟨[], []⟩ = (OutJson.obj ofields, st') ∧
      ∀ o, ("avatar", o) ∈ ofields → o = OutJson.null :=
  c4_graceful_failure.2 ⟨fun _ => "h", '/', "d", "b"⟩
    ⟨fun _ => none, fun _ => true, fun _ => RenameRes.ok⟩
    _ 0 [] ⟨[], []⟩ _ (fun _ => rfl) rfl (by decide) (by rfl) (by decide)

/-- C9, counterexample to the per-match exemption: a string holding both
a tenor-hosted gif URL and an ordinary media URL.  Because the gif-domain
regex is tested against the whole string, URL rewriting is skipped for the
entire string: the ordinary URL is left unchanged and nothing enters the
cache, even though the same world lets the downloader succeed on that URL
(second conjunct), so the claim that every non-gif match is still
downloaded and replaced fails at this input. -/
theorem c9_counterexample :
    processString ⟨fun _ => "h", '/', "b/downloaded_files", "b"⟩
      ⟨fun _ => some [1], fun _ => false, fun _ => RenameRes.ok⟩
      "https://media.tenor.com/a.gif https://c.d/pic.png" ⟨[], []⟩ =
      ("https://media.tenor.com/a.gif https://c.d/pic.png", ⟨[], []⟩) ∧
    downloadFile (fun _ => "h") '/'
      ⟨fun _ => some [1], fun _ => false, fun _ => RenameRes.ok⟩
      "https://c.d/pic.png" "b/downloaded_files/attachments" "b" none
      ⟨[], []⟩ =
      (some "downloaded_files/attachments/h.png",
       ⟨[("https://c.d/pic.png", "downloaded_files/attachments/h.png")],
        ["b/downloaded_files/attachments/h.png"]⟩) :=
  ⟨rfl, rfl⟩

/-- C9 as amended: the animated-gif exemption is string-level, not
match-level.  (i) When the gif-domain regex matches anywhere in a string
(and the string has no emote markup characters), the whole string is left
unchanged with no downloads, in every world; (ii) when it does not match,
each matched media URL is downloaded and, on success, textually replaced
by its local relative path (shown at a concrete input). -/
theorem c9_amended :
    (∀ (E : PEnv) (w : World) (s : String) (st : DLState),
      gifTestL s.toList = true →
      (s.toList.contains '<' && s.toList.contains ':' &&
        s.toList.contains '>') = false →
      processString E w s st = (s, st)) ∧
    (gifTestL ("see https://c.d/pic.png now").toList = false ∧
     processString ⟨fun _ => "h", '/', "b/downloaded_files", "b"⟩
       ⟨fun _ => some [1], fun _ => false, fun _ => RenameRes.ok⟩
       "see https://c.d/pic.png now" ⟨[], []⟩ =
       ("see downloaded_files/attachments/h.png now",
        ⟨[("https://c.d/pic.png", "downloaded_files/attachments/h.png")],
         ["b/downloaded_files/attachments/h.png"]⟩)) := by
  constructor
  · intro E w s st hg he
    simp only [processString, hg, if_true, he, Bool.false_eq_true, if_false]
    rfl
  · exact ⟨rfl, rfl⟩

/-- Witness for C9 as amended: a tenor URL alone is left unchanged even
in a world where its download would succeed. -/
theorem c9_amended_witness :
    processString ⟨fun _ => "h", '/', "b/downloaded_files", "b"⟩
      ⟨fun _ => some [1], fun _ => false, fun _ => RenameRes.ok⟩
      "https://media.tenor.com/a.gif" ⟨[], []⟩ =
      ("https://media.tenor.com/a.gif", ⟨[], []⟩) :=
  c9_amended.1 ⟨fun _ => "h", '/', "b/downloaded_files", "b"⟩
    ⟨fun _ => some [1], fun _ => false, fun _ => RenameRes.ok⟩
    "https://media.tenor.com/a.gif" ⟨[], []⟩ (by rfl) (by rfl)

/-! ### The rate-limit retry loop -/

/-- Characterization of the retry loop from any starting attempt: the
result is the first non-429 response, every earlier attempt saw a 429,
and the accumulated wait is the sum of the per-attempt delays. -/
theorem runReq_spec (resp : DReq → Nat → DResp) (req : DReq) :
    ∀ (fuel k0 k wait : Nat) (fin : DResp),
      runReq resp req k0 fuel = some (k, wait, fin) →
      k0 ≤ k ∧ fin = resp req k ∧ fin.status ≠ 429 ∧
      (∀ i, k0 ≤ i → i < k → (resp req i).status = 429) ∧
      wait + waitSum resp req k0 = waitSum resp req k
  | 0, k0, k, wait, fin, h => by simp [runReq] at h
  | fuel + 1, k0, k, wait, fin, h => by
    rw [runReq] at h
    by_cases hs : (resp req k0).status = 429
    · rw [if_pos hs] at h
      cases hr : runReq resp req (k0 + 1) fuel with
      | none => rw [hr] at h; simp at h
      | some x =>
        rw [hr] at h
        simp only [Option.some.injEq, Prod.mk.injEq] at h
        have hk := h.1
        have hw := h.2.1
        have hf := h.2.2
        obtain ⟨ih1, ih2, ih3, ih4, ih5⟩ :=
          runReq_spec resp req fuel (k0 + 1) x.1 x.2.1 x.2.2 hr
        rw [hk] at ih1 ih2 ih4 ih5
        rw [hf] at ih2 ih3
        refine ⟨by omega, ih2, ih3, ?_, ?_⟩
        · intro i hi1 hi2
          by_cases hi0 : i = k0
          · rw [hi0]; exact hs
          · exact ih4 i (by omega) hi2
        · have hws : waitSum resp req (k0 + 1) =
              waitSum resp req k0 + delayOf (resp req k0) := rfl
          omega
    · rw [if_neg hs] at h
      simp only [Option.some.injEq, Prod.mk.injEq] at h
      have hk := h.1
      have hw := h.2.1
      have hf := h.2.2
      subst hk
      refine ⟨Nat.le_refl _, hf.symm, by rw [hf] at hs; exact hs, ?_, ?_⟩
      · intro i hi1 hi2
        omega
      · omega

/-- If the server answers 429 forever, the loop never resolves: it keeps
retrying for any modelled number of attempts and never hands an error to
the caller. -/
theorem runReq_unbounded (resp : DReq → Nat → DResp) (req : DReq)
    (h : ∀ n, (resp req n).status = 429) :
    ∀ (fuel k0 : Nat), runReq resp req k0 fuel = none
  | 0, _ => rfl
  | fuel + 1, k0 => by
    rw [runReq, if_pos (h k0), runReq_unbounded resp req h fuel (k0 + 1)]

/-- C5: on a 429 the client waits the server-directed delay (seconds
times 1000 plus a 500 ms margin, or a fixed 5000 ms when the header is
absent) and re-issues the identical request, without bound.  (i) Whenever
the modelled loop resolves, the resolving response is the first non-429
one for the same request, every earlier attempt was a 429, the total wait
is exactly the sum of the per-429 delays, each such delay is at least the
server-directed seconds times 1000 (or exactly 5000 without the header),
and no 429 is ever handed to the caller; (ii) under a server that always
rate-limits, the loop never returns at any fuel, i.e. it retries without
bound rather than surfacing an error. -/
theorem c5_rate_limit_retry :
    (∀ (resp : DReq → Nat → DResp) (req : DReq) (fuel k wait : Nat)
        (fin : DResp),
      runReq resp req 0 fuel = some (k, wait, fin) →
      fin = resp req k ∧ fin.status ≠ 429 ∧
      (∀ i, i < k → (resp req i).status = 429) ∧
      wait = waitSum resp req k ∧
      (∀ i sec, (resp req i).retryAfter = some sec →
        sec * 1000 ≤ delayOf (resp req i)) ∧
      (∀ i, (resp req i).retryAfter = none →
        delayOf (resp req i) = 5000)) ∧
    (∀ (resp : DReq → Nat → DResp) (req : DReq),
      (∀ n, (resp req n).status = 429) →
      ∀ fuel, runReq resp req 0 fuel = none) := by
  constructor
  · intro resp req fuel k wait fin h
    obtain ⟨h1, h2, h3, h4, h5⟩ := runReq_spec resp req fuel 0 k wait fin h
    refine ⟨h2, h3, fun i hi => h4 i (Nat.zero_le i) hi, by
      have h0 : waitSum resp req 0 = 0 := rfl
      omega, ?_, ?_⟩
    · intro i sec hsec
      unfold delayOf
      rw [hsec]
      show sec * 1000 ≤ sec * 1000 + 500
      omega
    · intro i hna
      unfold delayOf
      rw [hna]
  · intro resp req h fuel
    exact runReq_unbounded resp req h fuel 0

/-- Witness for C5: a server that rate-limits twice with retry-after 2
resolves at attempt 2 after 5000 ms of waiting, with no 429 surfaced. -/
theorem c5_rate_limit_retry_witness :
    (DResp.mk 200 none) = (fun (_ : DReq) (n : Nat) =>
        if n < 2 then DResp.mk 429 (some 2) else DResp.mk 200 none)
        ⟨"t", "u", "GET"⟩ 2 ∧
    (DResp.mk 200 none).status ≠ 429 := by
  have h := c5_rate_limit_retry.1
    (fun (_ : DReq) (n : Nat) =>
      if n < 2 then DResp.mk 429 (some 2) else DResp.mk 200 none)
    ⟨"t", "u", "GET"⟩ 3 2 5000 (DResp.mk 200 none) (by rfl)
  exact ⟨h.1, h.2.1⟩

/-! ### The orchestrator fetch loop -/

/-- C6: inside the fetch loop, a failing batch is retried exactly once
after a fixed 5000 ms sleep; when the retry fails too, the loop publishes
an error event, writes the `EXPORT_FAILED.txt` marker naming the failed
batch, and returns aborted, so its full trace contains exactly the two
fetch calls for that batch and nothing afterwards: no further batch is
fetched or processed. -/
theorem c6_fetch_retry_abort (w : JobW) (maxB : Option Nat) (delay : Nat)
    (rem : List (List String)) (b : Nat) (before : Option String)
    (total : Nat)
    (h0 : w.fetchErr b 0 = true) (h1 : w.fetchErr b 1 = true)
    (hmax : (match maxB with
      | some m => decide (m ≤ b)
      | none => false) = false) :
    fetchLoop w maxB delay rem b before total =
      ([JEv.ev "progress", JEv.fetchCall b 0, JEv.ev "warning",
        JEv.sleep 5000, JEv.fetchCall b 1, JEv.ev "error",
        JEv.fileWrite "EXPORT_FAILED.txt"
          ("Failed fetch batch " ++ toString b)], LoopRes.aborted) := by
  have htf : tryFetch w b =
      ([JEv.ev "progress", JEv.fetchCall b 0, JEv.ev "warning",
        JEv.sleep 5000, JEv.fetchCall b 1, JEv.ev "error",
        JEv.fileWrite "EXPORT_FAILED.txt"
          ("Failed fetch batch " ++ toString b)], true) := by
    unfold tryFetch
    rw [if_pos h0, if_pos h1]
  cases rem with
  | nil =>
    simp only [fetchLoop, hmax, Bool.false_eq_true, if_false, htf, if_true]
  | cons m rest =>
    simp only [fetchLoop, hmax, Bool.false_eq_true, if_false, htf, if_true]

/-- Witness for C6: a world whose fetch always fails aborts batch 0 with
the expected trace. -/
theorem c6_fetch_retry_abort_witness :
    fetchLoop ⟨[], fun _ _ => true, fun _ => false, false, MoveR.ok, true⟩
      none 1000 [] 0 none 0 =
      ([JEv.ev "progress", JEv.fetchCall 0 0, JEv.ev "warning",
        JEv.sleep 5000, JEv.fetchCall 0 1, JEv.ev "error",
        JEv.fileWrite "EXPORT_FAILED.txt" ("Failed fetch batch " ++
          toString 0)], LoopRes.aborted) :=
  c6_fetch_retry_abort ⟨[], fun _ _ => true, fun _ => false, false,
    MoveR.ok, true⟩ none 1000 [] 0 none 0 (by rfl) (by rfl) (by rfl)


/-! ### Event traces of the orchestrator -/

theorem statuses_append (a b : List JEv) :
    statuses (a ++ b) = statuses a ++ statuses b :=
  List.filterMap_append a b _

theorem eq_false_of_not_true {x : Bool} (h : ¬ x = true) : x = false := by
  simp_all

theorem tryFetch_fail_statuses (w : JobW) (b : Nat)
    (h : (tryFetch w b).2 = true) :
    statuses (tryFetch w b).1 = ["progress", "warning", "error"] := by
  unfold tryFetch at h ⊢
  by_cases h0 : w.fetchErr b 0 = true
  · rw [if_pos h0] at h ⊢
    by_cases h1 : w.fetchErr b 1 = true
    · rw [if_pos h1]
      rfl
    · rw [if_neg h1] at h
      simp at h
  · rw [if_neg h0] at h
    simp at h

theorem tryFetch_ok_statuses (w : JobW) (b : Nat)
    (h : (tryFetch w b).2 = false) :
    statuses (tryFetch w b).1 = ["progress"] ∨
      statuses (tryFetch w b).1 = ["progress", "warning"] := by
  unfold tryFetch at h ⊢
  by_cases h0 : w.fetchErr b 0 = true
  · rw [if_pos h0] at h ⊢
    by_cases h1 : w.fetchErr b 1 = true
    · rw [if_pos h1] at h
      simp at h
    · rw [if_neg h1]
      exact Or.inr rfl
  · rw [if_neg h0]
    exact Or.inl rfl

/-- The fetch loop publishes no terminal status when it finishes
normally, and exactly one final `error` status when it aborts. -/
theorem fetchLoop_statuses (w : JobW) (maxB : Option Nat) (delay : Nat) :
    ∀ (rem : List (List String)) (b : Nat) (before : Option String)
      (total : Nat) (tr : List JEv) (res : LoopRes),
      fetchLoop w maxB delay rem b before total = (tr, res) →
      (res = LoopRes.aborted →
        ∃ pre, statuses tr = pre ++ ["error"] ∧
          ∀ e ∈ pre, ¬ isTerm e = true) ∧
      ((∃ b2 t2, res = LoopRes.done b2 t2) →
        ∀ e ∈ statuses tr, ¬ isTerm e = true) := by
  intro rem
  induction rem with
  | nil =>
    intro b before total tr res h
    simp only [fetchLoop] at h
    split at h
    · cases h
      refine ⟨fun hab => (nomatch hab), fun _ => ?_⟩
      intro e he
      simp [statuses] at he
    · split at h
      · cases h
        refine ⟨?_, ?_⟩
        · intro _
          refine ⟨["progress", "warning"], ?_, ?_⟩
          · rw [tryFetch_fail_statuses w b (by assumption)]
            rfl
          · decide
        · intro hdone
          obtain ⟨b2, t2, h2⟩ := hdone
          nomatch h2
      · cases h
        have htf : (tryFetch w b).2 = false :=
          eq_false_of_not_true (by assumption)
        refine ⟨fun hab => (nomatch hab), fun _ => ?_⟩
        intro e he
        rw [statuses_append] at he
        rcases List.mem_append.mp he with hm | hm
        · rcases tryFetch_ok_statuses w b htf with he1 | he1 <;>
            rw [he1] at hm <;> fin_cases hm <;> decide
        · have h2 : statuses [JEv.ev "progress", JEv.ev "progress"] =
              ["progress", "progress"] := rfl
          rw [h2] at hm
          fin_cases hm <;> decide
  | cons m rest ih =>
    intro b before total tr res h
    simp only [fetchLoop] at h
    split at h
    · cases h
      refine ⟨fun hab => (nomatch hab), fun _ => ?_⟩
      intro e he
      simp [statuses] at he
    · split at h
      · cases h
        refine ⟨?_, ?_⟩
        · intro _
          refine ⟨["progress", "warning"], ?_, ?_⟩
          · rw [tryFetch_fail_statuses w b (by assumption)]
            rfl
          · decide
        · intro hdone
          obtain ⟨b2, t2, h2⟩ := hdone
          nomatch h2
      · have htf : (tryFetch w b).2 = false :=
          eq_false_of_not_true (by assumption)
        split at h
        · cases h
          refine ⟨fun hab => (nomatch hab), fun _ => ?_⟩
          intro e he
          rw [statuses_append] at he
          rcases List.mem_append.mp he with hm | hm
          · rcases tryFetch_ok_statuses w b htf with he1 | he1 <;>
              rw [he1] at hm <;> fin_cases hm <;> decide
          · have h2 : statuses [JEv.ev "progress", JEv.ev "progress"] =
                ["progress", "progress"] := rfl
            rw [h2] at hm
            fin_cases hm <;> decide
        · have hmid : ∀ e ∈ statuses ((tryFetch w b).1 ++
              [JEv.ev "progress",
               JEv.fileWrite ("messages_batch_" ++ toString b) "raw",
               JEv.ev "progress"]), ¬ isTerm e = true := by
            intro e he
            rw [statuses_append] at he
            rcases List.mem_append.mp he with hm | hm
            · rcases tryFetch_ok_statuses w b htf with he1 | he1 <;>
                rw [he1] at hm <;> fin_cases hm <;> decide
            · have h2 : statuses [JEv.ev "progress",
                  JEv.fileWrite ("messages_batch_" ++ toString b) "raw",
                  JEv.ev "progress"] = ["progress", "progress"] := rfl
              rw [h2] at hm
              fin_cases hm <;> decide
          split at h
          · cases h
            refine ⟨?_, ?_⟩
            · intro _
              refine ⟨statuses ((tryFetch w b).1 ++
                  [JEv.ev "progress",
                   JEv.fileWrite ("messages_batch_" ++ toString b) "raw",
                   JEv.ev "progress"]), ?_, hmid⟩
              rw [statuses_append]
              rfl
            · intro hdone
              obtain ⟨b2, t2, h2⟩ := hdone
              nomatch h2
          · cases hr : fetchLoop w maxB delay rest (b + 1) m.getLast?
              (total + m.length) with
            | mk rtr rres =>
              rw [hr] at h
              cases h
              obtain ⟨ih1, ih2⟩ := ih (b + 1) m.getLast? (total + m.length)
                rtr rres hr
              have hpre : ∀ e ∈ statuses (((tryFetch w b).1 ++
                  [JEv.ev "progress",
                   JEv.fileWrite ("messages_batch_" ++ toString b) "raw",
                   JEv.ev "progress"]) ++
                  [JEv.fileWrite ("processed_messages_batch_" ++
                     toString b) "processed", JEv.ev "progress",
                   JEv.sleep delay]), ¬ isTerm e = true := by
                intro e he
                rw [statuses_append] at he
                rcases List.mem_append.mp he with hm | hm
                · exact hmid e hm
                · have h2 : statuses [JEv.fileWrite
                      ("processed_messages_batch_" ++ toString b)
                      "processed", JEv.ev "progress", JEv.sleep delay] =
                      ["progress"] := rfl
                  rw [h2] at hm
                  fin_cases hm <;> decide
              refine ⟨?_, ?_⟩
              · intro hab
                obtain ⟨pre, hp1, hp2⟩ := ih1 hab
                refine ⟨statuses (((tryFetch w b).1 ++
                    [JEv.ev "progress",
                     JEv.fileWrite ("messages_batch_" ++ toString b) "raw",
                     JEv.ev "progress"]) ++
                    [JEv.fileWrite ("processed_messages_batch_" ++
                       toString b) "processed", JEv.ev "progress",
                     JEv.sleep delay]) ++ pre, ?_, ?_⟩
                · rw [statuses_append, hp1]
                  exact (List.append_assoc _ _ _).symm
                · intro e he
                  rcases List.mem_append.mp he with hm | hm
                  · exact hpre e hm
                  · exact hp2 e hm
              · intro hdone e he
                rw [statuses_append] at he
                rcases List.mem_append.mp he with hm | hm
                · exact hpre e hm
                · exact ih2 hdone e hm


theorem statuses_ev (s : String) (l : List JEv) :
    statuses (JEv.ev s :: l) = s :: statuses l := rfl

theorem statuses_fw (n c : String) (l : List JEv) :
    statuses (JEv.fileWrite n c :: l) = statuses l := rfl

theorem statuses_nil : statuses [] = [] := rfl

/-- C7: For a single export job, the status-event trace produced by
runExportProcess begins with the starting event before any other status
(in particular before any progress event), and contains exactly one
terminal status (complete or error), which is the last event of the
trace: the trace is starting, then non-terminal statuses only, then the
single terminal status. -/
theorem c7_event_order (w : JobW) (maxB : Option Nat) (delay : Nat) :
    ∃ mid t, statuses (runExport w maxB delay) =
      "starting" :: (mid ++ [t]) ∧ isTerm t = true ∧
      ∀ e ∈ mid, ¬ isTerm e = true := by
  unfold runExport
  by_cases hmk : w.mkdirOk = true
  · have hb : (!w.mkdirOk) = false := by simp [hmk]
    rw [if_neg (by simp [hb])]
    cases hr : fetchLoop w maxB delay w.batches 0 none 0 with
    | mk tr res =>
      obtain ⟨hl1, hl2⟩ :=
        fetchLoop_statuses w maxB delay w.batches 0 none 0 tr res hr
      cases res with
      | aborted =>
        obtain ⟨pre, hp1, hp2⟩ := hl1 rfl
        refine ⟨"progress" :: "progress" :: pre, "error", ?_, by decide, ?_⟩
        · simp only [statuses_ev, statuses_append, statuses_nil, hp1,
            List.append_nil, List.cons_append]
        · intro e he
          rcases List.mem_cons.mp he with h1 | h1
          · rw [h1]; decide
          · rcases List.mem_cons.mp h1 with h2 | h2
            · rw [h2]; decide
            · exact hp2 e h2
      | done b2 t2 =>
        have hnt := hl2 ⟨b2, t2, rfl⟩
        by_cases hrend : w.renderErr = true
        · rw [if_pos hrend]
          refine ⟨"progress" :: "progress" ::
            (statuses tr ++ ["progress"]), "error", ?_, by decide, ?_⟩
          · simp only [statuses_ev, statuses_append, statuses_fw,
              statuses_nil, List.cons_append, List.append_assoc,
              List.nil_append]
          · intro e he
            rcases List.mem_cons.mp he with h1 | h1
            · rw [h1]; decide
            · rcases List.mem_cons.mp h1 with h2 | h2
              · rw [h2]; decide
              · rcases List.mem_append.mp h2 with h3 | h3
                · exact hnt e h3
                · rcases List.mem_singleton.mp h3 with rfl
                  decide
        · rw [if_neg hrend]
          cases hmv : w.moveRes with
          | ok =>
            refine ⟨"progress" :: "progress" :: (statuses tr ++
              ["progress", "progress", "progress", "progress"]),
              "complete", ?_, by decide, ?_⟩
            · simp only [statuses_ev, statuses_append, statuses_fw,
                statuses_nil, List.cons_append, List.append_assoc,
                List.nil_append]
            · intro e he
              rcases List.mem_cons.mp he with h1 | h1
              · rw [h1]; decide
              · rcases List.mem_cons.mp h1 with h2 | h2
                · rw [h2]; decide
                · rcases List.mem_append.mp h2 with h3 | h3
                  · exact hnt e h3
                  · fin_cases h3 <;> decide
          | noDir =>
            refine ⟨"progress" :: "progress" :: (statuses tr ++
              ["progress", "progress", "progress", "progress"]),
              "complete", ?_, by decide, ?_⟩
            · simp only [statuses_ev, statuses_append, statuses_fw,
                statuses_nil, List.cons_append, List.append_assoc,
                List.nil_append]
            · intro e he
              rcases List.mem_cons.mp he with h1 | h1
              · rw [h1]; decide
              · rcases List.mem_cons.mp h1 with h2 | h2
                · rw [h2]; decide
                · rcases List.mem_append.mp h2 with h3 | h3
                  · exact hnt e h3
                  · fin_cases h3 <;> decide
          | fail =>
            refine ⟨"progress" :: "progress" :: (statuses tr ++
              ["progress", "progress", "progress", "warning"]),
              "complete", ?_, by decide, ?_⟩
            · simp only [statuses_ev, statuses_append, statuses_fw,
                statuses_nil, List.cons_append, List.append_assoc,
                List.nil_append]
            · intro e he
              rcases List.mem_cons.mp he with h1 | h1
              · rw [h1]; decide
              · rcases List.mem_cons.mp h1 with h2 | h2
                · rw [h2]; decide
                · rcases List.mem_append.mp h2 with h3 | h3
                  · exact hnt e h3
                  · fin_cases h3 <;> decide
  · have hb : (!w.mkdirOk) = true := by
      rw [eq_false_of_not_true hmk]
      rfl
    rw [if_pos hb]
    exact ⟨[], "error", rfl, by decide, by simp⟩
